import Mathlib

/-
Shallow embedding of the APT-repository configuration mutation engine of
src/src-tauri/src/modules/config.rs (functions parse_sources_file,
list_apt_repos, toggle_apt_repo, add_apt_repo, delete_apt_repo, Linux
branch).  Strings are modelled as lists of characters; file contents are
the exact character sequences read from / written to disk.  Filesystem
reads, the `pkexec` elevation helper and its exit status are modelled as
explicit parameters (`Option` file content, `HelperOutcome`), and the
side effects of a privileged write are recorded as an explicit event
trace (`FsEvent`).
-/

namespace Gantry

/-- Strings of the embedded program: a Rust `String` / `&str` as its
character sequence. -/
abbrev Str := List Char

/-- The character class used by Rust's `char::is_whitespace`
(Unicode property White_Space), which `str::trim`,
`str::split_whitespace` and `str::trim` of the source rely on. -/
def isRustWs (c : Char) : Bool :=
  c = ' ' || ('\x09' ≤ c && c ≤ '\x0d') || c = '\u0085' || c = '\u00a0' ||
  c = '\u1680' || ('\u2000' ≤ c && c ≤ '\u200a') || c = '\u2028' ||
  c = '\u2029' || c = '\u202f' || c = '\u205f' || c = '\u3000'

/-- Rust `str::trim`: remove leading and trailing whitespace. -/
def rustTrim (l : Str) : Str :=
  ((l.dropWhile isRustWs).reverse.dropWhile isRustWs).reverse

/-- Split a character list at every character satisfying `p`, keeping
empty segments (the splitting behaviour underlying both `str::lines`
and `str::split_whitespace`).  Always returns at least one segment. -/
def splitBy (p : Char → Bool) : Str → List Str
  | [] => [[]]
  | c :: cs =>
    let r := splitBy p cs
    if p c then [] :: r
    else
      match r with
      | [] => [[c]]
      | h :: t => (c :: h) :: t

/-- Remove one trailing carriage return, as `str::lines` does for every
line terminated by a newline. -/
def stripCR1 (l : Str) : Str :=
  if l.getLast? = some '\r' then l.dropLast else l

/-- Post-processing of the newline-split segments performed by
`str::lines`: every segment that was followed by a `\n` loses one
trailing `\r`; a final empty segment (trailing newline) is dropped; a
final nonempty segment is kept verbatim. -/
def fixSegs : List Str → List Str
  | [] => []
  | [s] => if s = [] then [] else [s]
  | s :: rest => stripCR1 s :: fixSegs rest

/-- Rust `str::lines` on a file content. -/
def rustLines (content : Str) : List Str :=
  fixSegs (splitBy (fun c => c = '\n') content)

/-- Rust `Vec::join` with a one-character separator. -/
def joinSep (sep : Char) : List Str → Str
  | [] => []
  | [l] => l
  | l :: rest => l ++ sep :: joinSep sep rest

/-- Rust `lines.join("\n")`, as used by every rewrite in the source. -/
def joinNl (ls : List Str) : Str := joinSep '\n' ls

/-- Rust `str::split_whitespace`: maximal runs of non-whitespace. -/
def splitWs (l : Str) : List Str :=
  (splitBy isRustWs l).filter (fun t => !t.isEmpty)

/-- Fuel-indexed worker for `stripPrefixRep`. -/
def stripPrefixRepGo : Nat → Str → Str → Str
  | 0, _, l => l
  | fuel + 1, p, l =>
    if !p.isEmpty && p.isPrefixOf l then stripPrefixRepGo fuel p (l.drop p.length)
    else l

/-- Rust `str::trim_start_matches` with a string pattern: repeatedly
remove the prefix while it matches.  `l.length` steps of fuel always
suffice because each step removes at least one character. -/
def stripPrefixRep (p l : Str) : Str := stripPrefixRepGo l.length p l

/-- ASCII lowering; models Rust `str::to_lowercase` on the values it is
compared against in the source (`"yes"` / `"true"`). -/
def asciiLower (l : Str) : Str :=
  l.map fun c => if 'A' ≤ c && c ≤ 'Z' then Char.ofNat (c.toNat + 32) else c

/-- A decimal digit character. -/
def digitCh (d : Nat) : Char := Char.ofNat (48 + d)

/-- Fuel-indexed worker producing the decimal digits of `n` (empty for
`n = 0`). -/
def natToCharsGo : Nat → Nat → Str
  | 0, _ => []
  | _, 0 => []
  | fuel + 1, n + 1 =>
    natToCharsGo fuel ((n + 1) / 10) ++ [digitCh ((n + 1) % 10)]

/-- Decimal representation of a `usize`, as produced by Rust's
`format!("{}", n)` in the record-id encoding. -/
def natToChars (n : Nat) : Str := if n = 0 then ['0'] else natToCharsGo n n

/-- ASCII decimal digit test. -/
def isDigitCh (c : Char) : Bool := '0' ≤ c && c ≤ '9'

/-- Numeric value of a digit character. -/
def digitVal (c : Char) : Nat := c.toNat - 48

/-- Rust `str::parse::<usize>()`: an optional leading `+`, then one or
more ASCII digits, rejecting values that overflow the 64-bit `usize`. -/
def parseUsize (l : Str) : Option Nat :=
  let body := match l with
    | c :: rest => if c = '+' then rest else l
    | [] => l
  if !body.isEmpty && body.all isDigitCh then
    let v := body.foldl (fun a c => 10 * a + digitVal c) 0
    if v < 2 ^ 64 then some v else none
  else none

/-- Worker for `rsplitOnce`: scans the reversed input for the first
separator (the last one of the original input). -/
def rsplitGo : Str → Str → Option (Str × Str)
  | [], _ => none
  | c :: rest, acc =>
    if c = ':' then some (rest.reverse, acc) else rsplitGo rest (c :: acc)

/-- Rust `id.rsplitn(2, ':')` when it yields two parts: splits at the
last colon into (left part, right part); `none` when the input contains
no colon (the one-part case of `rsplitn`). -/
def rsplitOnce (l : Str) : Option (Str × Str) := rsplitGo l.reverse []

/-- Result of decoding a record identifier. -/
inductive DecodeRes where
  | ok : Str → Nat → DecodeRes
  | err : Str → DecodeRes
deriving DecidableEq

/-- Identifier decoding shared by `toggle_apt_repo` and
`delete_apt_repo` (config.rs lines 175-181 and 334-340): split the id
once from the right on a colon; the split must yield two parts and the
right part must parse as a `usize`. -/
def decodeId (id : Str) : DecodeRes :=
  match rsplitOnce id with
  | none => .err ("Invalid repository ID".toList)
  | some (pathPart, numPart) =>
    match parseUsize numPart with
    | none => .err ("Invalid line number".toList)
    | some n => .ok pathPart n

/-- The `AptRepository` record of config.rs. -/
structure AptRepository where
  id : Str
  file_path : Str
  line_number : Nat
  types : Str
  uris : Str
  suites : Str
  components : Str
  enabled : Bool
  original_line : Str
deriving DecidableEq, Repr

/-- The accumulator state of the DEB822 branch of
`parse_sources_file` (config.rs lines 31-36). -/
structure Deb822Acc where
  enabled : Bool
  types : Str
  uris : Str
  suites : Str
  components : Str
  startLine : Nat
deriving DecidableEq, Repr

/-- Initial accumulator: `current_enabled = true`, empty fields,
`start_line = 0`. -/
def initAcc : Deb822Acc :=
  { enabled := true, types := [], uris := [], suites := [],
    components := [], startLine := 0 }

/-- The boolean computed from an `Enabled:` line (config.rs lines
68-69): strip the field name repeatedly, trim, lowercase, compare with
`yes` / `true`. -/
def enabledValOf (t : Str) : Bool :=
  let v := asciiLower (rustTrim (stripPrefixRep ("Enabled:".toList) t))
  v = ("yes".toList) || v = ("true".toList)

/-- One non-blank line of the DEB822 parser loop acting on the
accumulator (config.rs lines 67-81); `t` is the trimmed line and `idx`
its 0-based index. -/
def debFieldStep (idx : Nat) (t : Str) (acc : Deb822Acc) : Deb822Acc :=
  if ("Enabled:".toList).isPrefixOf t then
    { acc with enabled := enabledValOf t }
  else if ("Types:".toList).isPrefixOf t then
    { acc with
      types := rustTrim (stripPrefixRep ("Types:".toList) t),
      startLine :=
        if acc.startLine = 0 || acc.uris.isEmpty then idx else acc.startLine }
  else if ("URIs:".toList).isPrefixOf t then
    { acc with uris := rustTrim (stripPrefixRep ("URIs:".toList) t) }
  else if ("Suites:".toList).isPrefixOf t then
    { acc with suites := rustTrim (stripPrefixRep ("Suites:".toList) t) }
  else if ("Components:".toList).isPrefixOf t then
    { acc with components := rustTrim (stripPrefixRep ("Components:".toList) t) }
  else acc

/-- The record pushed by the DEB822 parser from accumulator `acc`
(config.rs lines 43-56 and 84-95); `orig` is the `original_line` field,
which differs between the blank-line emission and the end-of-file
emission. -/
def mkDebRec (fp : Str) (acc : Deb822Acc) (orig : Str) : AptRepository :=
  { id := fp ++ ':' :: natToChars acc.startLine,
    file_path := fp,
    line_number := acc.startLine,
    types := acc.types,
    uris := acc.uris,
    suites := acc.suites,
    components := acc.components,
    enabled := acc.enabled,
    original_line := orig }

/-- The `original_line` of a record emitted at a blank line:
`format!("{} {} {} {}", types, uris, suites, components)`. -/
def debOrigLine (acc : Deb822Acc) : Str :=
  acc.types ++ ' ' :: (acc.uris ++ ' ' :: (acc.suites ++ ' ' :: acc.components))

/-- The DEB822 branch of `parse_sources_file` (config.rs lines 30-96):
walk the lines with the accumulator, emit a record at each blank line
closing a paragraph with nonempty `URIs:`, and flush the final open
paragraph at end of file (with an empty `original_line`). -/
def parseDebGo (fp : Str) (idx : Nat) (rem : List Str) (acc : Deb822Acc) :
    List AptRepository :=
  match rem with
  | [] => if !acc.uris.isEmpty then [mkDebRec fp acc []] else []
  | line :: rest =>
    let t := rustTrim line
    if t.isEmpty then
      (if !acc.uris.isEmpty then [mkDebRec fp acc (debOrigLine acc)] else []) ++
        parseDebGo fp (idx + 1) rest
          { initAcc with startLine := idx + 1 }
    else
      parseDebGo fp (idx + 1) rest (debFieldStep idx t acc)

/-- Line classification of the traditional branch (config.rs lines
105-116): a commented line is uncommented (all leading `#` stripped,
then trimmed) and accepted when the remainder starts with `deb`; an
uncommented line is accepted when it starts with `deb`.  The result is
`(is_enabled, effective_line)`. -/
def tradClassify (t : Str) : Option (Bool × Str) :=
  if t.head? = some '#' then
    if ("deb".toList).isPrefixOf (rustTrim (t.dropWhile (fun c => c = '#'))) then
      some (false, rustTrim (t.dropWhile (fun c => c = '#')))
    else none
  else if ("deb".toList).isPrefixOf t then some (true, t)
  else none

/-- The record built from an accepted traditional line (config.rs
lines 118-139). -/
def tradRecord (fp : Str) (idx : Nat) (line : Str) (en : Bool) (eff : Str) :
    AptRepository :=
  let parts := splitWs eff
  { id := fp ++ ':' :: natToChars idx,
    file_path := fp,
    line_number := idx,
    types := parts.getD 0 [],
    uris := parts.getD 1 [],
    suites := parts.getD 2 [],
    components :=
      if parts.length > 3 then joinSep ' ' (parts.drop 3) else [],
    enabled := en,
    original_line := line }

/-- The traditional branch of `parse_sources_file` (config.rs lines
97-142): classify each line independently, emitting a record for
commented or uncommented `deb` lines with at least three
whitespace-separated fields. -/
def parseTradGo (fp : Str) (idx : Nat) : List Str → List AptRepository
  | [] => []
  | line :: rest =>
    let t := rustTrim line
    let next := parseTradGo fp (idx + 1) rest
    if t.isEmpty then next
    else
      match tradClassify t with
      | none => next
      | some (en, eff) =>
        if (splitWs eff).length ≥ 3 then tradRecord fp idx line en eff :: next
        else next

/-- `parse_sources_file` (config.rs lines 21-145).  `fp` is the file
path string; `isDeb822` models `path.extension() == "sources"`; the
content is the character sequence `fs::read_to_string` returned. -/
def parseSourcesFile (fp : Str) (isDeb822 : Bool) (content : Str) :
    List AptRepository :=
  if isDeb822 then parseDebGo fp 0 (rustLines content) initAcc
  else parseTradGo fp 0 (rustLines content)

/-- The `Enabled: yes` / `Enabled: no` line synthesized by the DEB822
toggle (config.rs lines 205 and 223). -/
def enLine (e : Bool) : Str :=
  ("Enabled: ".toList) ++ (if e then ("yes".toList) else ("no".toList))

/-- Rust `Vec::insert`: insert `x` before position `k`. -/
def insAt (k : Nat) (x : Str) (l : List Str) : List Str :=
  l.take k ++ x :: l.drop k

/-- The per-line transformation of the traditional toggle branch
(config.rs lines 241-254) applied to the addressed line: when enabling,
a line whose trimmed form starts with `#` is replaced by the trim of
the result of stripping every leading `#`; when disabling, a line whose
trimmed form does not start with `#` is replaced by the trimmed line
prefixed with the two characters `# `. -/
def toggleTradLine (line : Str) (enabled : Bool) : Str :=
  let t := rustTrim line
  if enabled then
    if t.head? = some '#' then rustTrim (t.dropWhile (fun c => c = '#'))
    else line
  else
    if t.head? = some '#' then line
    else '#' :: ' ' :: t

/-- Worker for the traditional toggle loop (config.rs lines 238-258):
every line keeps its content except the one at index `n`. -/
def toggleTradGo (n : Nat) (e : Bool) (idx : Nat) : List Str → List Str
  | [] => []
  | l :: rest =>
    (if idx = n then toggleTradLine l e else l) :: toggleTradGo n e (idx + 1) rest

/-- The traditional branch of `toggle_apt_repo` at the level of line
lists. -/
def toggleTrad (lines : List Str) (n : Nat) (e : Bool) : List Str :=
  toggleTradGo n e 0 lines

/-- The new file content computed by the traditional branch of
`toggle_apt_repo`: toggle the addressed line, join with `\n`
(config.rs line 260). -/
def toggleTradContent (content : Str) (n : Nat) (e : Bool) : Str :=
  joinNl (toggleTrad (rustLines content) n e)

/-- Worker for the DEB822 toggle loop (config.rs lines 193-234).  The
arguments mirror the loop state: current index, remaining lines,
`result_lines`, `in_target_stanza`, `found_enabled_field` and
`stanza_start`.  At end of file the pending `Enabled:` insertion of an
open target stanza is performed (config.rs lines 229-234). -/
def toggleDebGo (n : Nat) (e : Bool) :
    Nat → List Str → List Str → Bool → Bool → Nat → List Str
  | _, [], res, inT, fE, ss =>
    if inT && !fE then insAt ss (enLine e) res else res
  | idx, line :: rest, res, inT, fE, ss =>
    let t := rustTrim line
    if t.isEmpty then
      let res1 := if inT && !fE then insAt ss (enLine e) res else res
      toggleDebGo n e (idx + 1) rest (res1 ++ [line]) false false ss
    else
      let inT2 := if idx = n || (inT && decide (n < idx)) then true else inT
      let ss2 := if idx = n then res.length else ss
      if inT2 && (("Enabled:".toList).isPrefixOf t) then
        toggleDebGo n e (idx + 1) rest (res ++ [enLine e]) inT2 true ss2
      else
        toggleDebGo n e (idx + 1) rest (res ++ [line]) inT2 fE ss2

/-- The DEB822 branch of `toggle_apt_repo` at the level of line
lists. -/
def toggleDeb822 (lines : List Str) (n : Nat) (e : Bool) : List Str :=
  toggleDebGo n e 0 lines [] false false 0

/-- The new file content computed by the DEB822 branch of
`toggle_apt_repo` (config.rs line 236). -/
def toggleDebContent (content : Str) (n : Nat) (e : Bool) : Str :=
  joinNl (toggleDeb822 (rustLines content) n e)

/-- Worker for the DEB822 delete loop (config.rs lines 352-367): the
addressed line starts a skip region that extends through the next
blank line, which is also consumed. -/
def delGo (n : Nat) : Nat → List Str → Bool → List Str
  | _, [], _ => []
  | idx, line :: rest, skip =>
    if idx = n then delGo n (idx + 1) rest true
    else if skip then
      if (rustTrim line).isEmpty then delGo n (idx + 1) rest false
      else delGo n (idx + 1) rest true
    else line :: delGo n (idx + 1) rest skip

/-- The DEB822 branch of `delete_apt_repo` at the level of line
lists. -/
def deleteDeb822 (lines : List Str) (n : Nat) : List Str :=
  delGo n 0 lines false

/-- The traditional branch of `delete_apt_repo` (config.rs lines
369-376): drop exactly the addressed line. -/
def delTradGo (n : Nat) (idx : Nat) : List Str → List Str
  | [] => []
  | l :: rest =>
    if idx = n then delTradGo n (idx + 1) rest
    else l :: delTradGo n (idx + 1) rest

/-- Traditional delete at the level of line lists. -/
def deleteTrad (lines : List Str) (n : Nat) : List Str :=
  delTradGo n 0 lines

/-- Outcome of handing a command to the `pkexec` elevation helper:
either `Command::output()` itself returned an error (the helper could
not be spawned), or the helper ran and exited with the given success
flag and standard-error text. -/
inductive HelperOutcome where
  | spawnError : Str → HelperOutcome
  | exited : Bool → Str → HelperOutcome
deriving DecidableEq, Repr

/-- Observable side effects of a mutation command, in program order:
writing the staged temporary file, invoking the elevation helper with
its argument vector, and deleting the staged temporary file. -/
inductive FsEvent where
  | writeTemp : Str → Str → FsEvent
  | invokeHelper : List Str → FsEvent
  | removeTemp : Str → FsEvent
deriving DecidableEq, Repr

/-- Result of a mutation command: `ok` models the
`json!({"success": true})` acknowledgment, `err` the `Err(String)`
branch. -/
inductive CmdResult where
  | ok : CmdResult
  | err : Str → CmdResult
deriving DecidableEq, Repr

/-- The shared privileged-write block (config.rs lines 263-271,
313-321 and 390-398): write the staged content to the fixed temporary
path, run `pkexec cp temp target`, delete the temporary file, and map a
non-zero exit status to an error prefixed with `errPre`.  When spawning
the helper fails, the function returns early with the spawn error and
the temporary file is not deleted. -/
def stagedInstall (tempName target content errPre : Str)
    (outcome : HelperOutcome) : List FsEvent × CmdResult :=
  match outcome with
  | .spawnError m => ([.writeTemp tempName content], .err m)
  | .exited ok stderr =>
    ([.writeTemp tempName content,
      .invokeHelper [("cp".toList), tempName, target],
      .removeTemp tempName],
     if ok then .ok else .err (errPre ++ stderr))

/-- The `toggle_apt_repo` command (config.rs lines 172-279).  `file`
is the result of reading the decoded path (`none` models a missing
file), `isDeb822` models `path.extension() == "sources"` on the decoded
path, and `outcome` the behaviour of the `pkexec` invocation. -/
def toggleAptRepo (id : Str) (enabled : Bool) (file : Option Str)
    (isDeb822 : Bool) (outcome : HelperOutcome) : List FsEvent × CmdResult :=
  match decodeId id with
  | .err e => ([], .err e)
  | .ok path n =>
    match file with
    | none => ([], .err ("Repository file not found".toList))
    | some content =>
      let newContent :=
        if isDeb822 then toggleDebContent content n enabled
        else toggleTradContent content n enabled
      stagedInstall ("apt_repo_temp".toList) path newContent
        ("Failed to update repository: ".toList) outcome

/-- The validation and staged write of `add_apt_repo` (config.rs lines
283-329).  The derived target file name depends on the existing
directory contents and the current time (config.rs lines 294-310), so
the resolved target path is a parameter. -/
def addAptRepo (repoLine : Str) (targetPath : Str)
    (outcome : HelperOutcome) : List FsEvent × CmdResult :=
  let trimmed := rustTrim repoLine
  if !(("deb ".toList).isPrefixOf trimmed) &&
     !(("deb-src ".toList).isPrefixOf trimmed) then
    ([], .err ("Repository line must start with 'deb' or 'deb-src'".toList))
  else if (splitWs trimmed).length < 3 then
    ([], .err ("Invalid repository format. Expected: deb URI suite [components...]".toList))
  else
    stagedInstall ("apt_repo_add_temp".toList) targetPath (trimmed ++ ['
'])
      ("Failed to add repository: ".toList) outcome

/-- The `delete_apt_repo` command (config.rs lines 331-407).  When the
remaining content is whitespace-only the target file is removed via
`pkexec rm` without staging anything; otherwise the remaining content,
with a trailing newline appended, is staged and installed over the
target. -/
def deleteAptRepo (id : Str) (file : Option Str) (isDeb822 : Bool)
    (outcome : HelperOutcome) : List FsEvent × CmdResult :=
  match decodeId id with
  | .err e => ([], .err e)
  | .ok path n =>
    match file with
    | none => ([], .err ("Repository file not found".toList))
    | some content =>
      let lines := rustLines content
      let newLines := if isDeb822 then deleteDeb822 lines n else deleteTrad lines n
      let newContent := joinNl newLines
      if (rustTrim newContent).isEmpty then
        match outcome with
        | .spawnError m => ([], .err m)
        | .exited ok stderr =>
          ([.invokeHelper [("rm".toList), path]],
           if ok then .ok
           else .err (("Failed to delete repository file: ".toList) ++ stderr))
      else
        stagedInstall ("apt_repo_del_temp".toList) path (newContent ++ ['
'])
          ("Failed to update repository file: ".toList) outcome

/-- Iterated `debFieldStep` over a run of non-blank lines: the exact
accumulator evolution of the DEB822 parser inside one paragraph. -/
def debPara (idx : Nat) (para : List Str) (acc : Deb822Acc) : Deb822Acc :=
  match para with
  | [] => acc
  | l :: rest => debPara (idx + 1) rest (debFieldStep idx (rustTrim l) acc)

/-- The value the DEB822 parser would store for the field named by
prefix `p` from the last line of `para` matching `p`, if any:
later occurrences are processed later and overwrite earlier ones. -/
def lastFieldVal (p : Str) : List Str → Option Str
  | [] => none
  | l :: rest =>
    match lastFieldVal p rest with
    | some v => some v
    | none =>
      if p.isPrefixOf (rustTrim l) then
        some (rustTrim (stripPrefixRep p (rustTrim l)))
      else none

/-- The `enabled` flag determined by the last `Enabled:` line of a
paragraph, if any. -/
def lastEnabledVal (para : List Str) : Option Bool :=
  match para with
  | [] => none
  | l :: rest =>
    match lastEnabledVal rest with
    | some b => some b
    | none =>
      if ("Enabled:".toList).isPrefixOf (rustTrim l) then
        some (enabledValOf (rustTrim l))
      else none

/-- A line list is in normal form when no line contains a newline, no
line ends in a carriage return, and the last line is not empty; these
are exactly the line lists `l` with `rustLines (joinNl l) = l`, i.e.
the files whose content survives a split-and-rejoin unchanged. -/
def GoodLines (ls : List Str) : Prop :=
  (∀ l ∈ ls, ('\n' : Char) ∉ l ∧ l.getLast? ≠ some '\r') ∧
  ls.getLast? ≠ some ([] : Str)

instance (ls : List Str) : Decidable (GoodLines ls) := by
  unfold GoodLines; infer_instance

theorem splitBy_ne_nil (p : Char → Bool) (l : Str) : splitBy p l ≠ [] := by
  cases l with
  | nil => simp [splitBy]
  | cons c cs =>
    simp only [splitBy]
    cases h : splitBy p cs with
    | nil => cases p c <;> simp
    | cons a t => cases p c <;> simp

theorem splitBy_no_sep (p : Char → Bool) (a : Str)
    (h : ∀ c ∈ a, p c = false) : splitBy p a = [a] := by
  induction a with
  | nil => rfl
  | cons c cs ih =>
    have hc : p c = false := h c (by simp)
    have ih2 := ih (fun x hx => h x (by simp [hx]))
    simp [splitBy, hc, ih2]

theorem splitBy_append_sep (p : Char → Bool) (a rest : Str) (c0 : Char)
    (h : ∀ c ∈ a, p c = false) (hc : p c0 = true) :
    splitBy p (a ++ c0 :: rest) = a :: splitBy p rest := by
  induction a with
  | nil => simp [splitBy, hc]
  | cons c cs ih =>
    have hcf : p c = false := h c (by simp)
    have ih2 := ih (fun x hx => h x (by simp [hx]))
    simp [List.cons_append, splitBy, hcf, ih2]

theorem fixSegs_cons (a : Str) (segs : List Str) (hne : segs ≠ [])
    (hcr : a.getLast? ≠ some '\r') : fixSegs (a :: segs) = a :: fixSegs segs := by
  cases segs with
  | nil => exact absurd rfl hne
  | cons s t => simp [fixSegs, stripCR1, hcr]

theorem rustLines_joinNl (ls : List Str) (h : GoodLines ls) :
    rustLines (joinNl ls) = ls := by
  induction ls with
  | nil => rfl
  | cons a rest ih =>
    obtain ⟨hmem, hlast⟩ := h
    obtain ⟨hna, hcra⟩ := hmem a (by simp)
    cases rest with
    | nil =>
      have hane : a ≠ [] := by
        intro he; rw [he] at hlast; simp [List.getLast?] at hlast
      have : splitBy (fun c => c = '\n') a = [a] := by
        apply splitBy_no_sep
        intro c hc
        simp only [decide_eq_false_iff_not]
        intro he; rw [he] at hc; exact hna hc
      simp [rustLines, joinNl, joinSep, this, fixSegs, hane]
    | cons b t =>
      have hjoin : joinNl (a :: b :: t) = a ++ '\n' :: joinNl (b :: t) := rfl
      have hsplit : splitBy (fun c => c = '\n') (a ++ '\n' :: joinNl (b :: t)) =
          a :: splitBy (fun c => c = '\n') (joinNl (b :: t)) := by
        apply splitBy_append_sep
        · intro c hc
          simp only [decide_eq_false_iff_not]
          intro he; rw [he] at hc; exact hna hc
        · simp
      have hgood2 : GoodLines (b :: t) := by
        refine ⟨fun l hl => hmem l (by simp [hl]), ?_⟩
        rwa [List.getLast?_cons_cons] at hlast
      have ihr := ih hgood2
      rw [rustLines] at ihr
      rw [rustLines, hjoin, hsplit,
        fixSegs_cons a _ (splitBy_ne_nil _ _) hcra, ihr]
theorem dropWhile_ws_eq_self (l : Str)
    (h : ∀ c, l.head? = some c → isRustWs c = false) :
    l.dropWhile isRustWs = l := by
  cases l with
  | nil => rfl
  | cons c cs => simp [List.dropWhile_cons, h c rfl]

theorem revDropWhile_ws_eq_self (l : Str)
    (h : ∀ c, l.getLast? = some c → isRustWs c = false) :
    l.reverse.dropWhile isRustWs = l.reverse := by
  apply dropWhile_ws_eq_self
  intro c hc
  rw [List.head?_reverse] at hc
  exact h c hc

theorem rustTrim_eq_self (l : Str)
    (h1 : ∀ c, l.head? = some c → isRustWs c = false)
    (h2 : ∀ c, l.getLast? = some c → isRustWs c = false) :
    rustTrim l = l := by
  rw [rustTrim, dropWhile_ws_eq_self l h1, revDropWhile_ws_eq_self l h2,
    List.reverse_reverse]

theorem rustTrim_parts (l : Str) (h : rustTrim l = l) :
    l.dropWhile isRustWs = l ∧ l.reverse.dropWhile isRustWs = l.reverse := by
  have hsuf1 : l.dropWhile isRustWs <:+ l := List.dropWhile_suffix _
  have hsuf2 : (l.dropWhile isRustWs).reverse.dropWhile isRustWs <:+
      (l.dropWhile isRustWs).reverse := List.dropWhile_suffix _
  have hlen : ((l.dropWhile isRustWs).reverse.dropWhile isRustWs).length = l.length := by
    have := congrArg List.length h
    simpa [rustTrim] using this
  have hlen1 : (l.dropWhile isRustWs).length = l.length := by
    have a := hsuf2.length_le
    have b := hsuf1.length_le
    simp only [List.length_reverse] at a
    omega
  have heq1 : l.dropWhile isRustWs = l := hsuf1.eq_of_length hlen1
  refine ⟨heq1, ?_⟩
  rw [heq1] at hsuf2 hlen
  exact hsuf2.eq_of_length (by simpa using hlen)

theorem trimNormal_head (l : Str) (h : rustTrim l = l) :
    ∀ c, l.head? = some c → isRustWs c = false := by
  intro c hc
  obtain ⟨h1, _⟩ := rustTrim_parts l h
  cases l with
  | nil => simp at hc
  | cons a cs =>
    obtain rfl : a = c := by simpa using hc
    by_contra hw
    simp only [Bool.not_eq_false] at hw
    rw [List.dropWhile_cons, if_pos hw] at h1
    have := congrArg List.length h1
    have hle := (List.dropWhile_suffix (l := cs) isRustWs).length_le
    simp at this
    omega

theorem trimNormal_last (l : Str) (h : rustTrim l = l) :
    ∀ c, l.getLast? = some c → isRustWs c = false := by
  intro c hc
  obtain ⟨_, h2⟩ := rustTrim_parts l h
  rw [← List.head?_reverse] at hc
  cases hr : l.reverse with
  | nil => rw [hr] at hc; simp at hc
  | cons a cs =>
    rw [hr] at hc h2
    obtain rfl : a = c := by simpa using hc
    by_contra hw
    simp only [Bool.not_eq_false] at hw
    rw [List.dropWhile_cons, if_pos hw] at h2
    have := congrArg List.length h2
    have hle := (List.dropWhile_suffix (l := cs) isRustWs).length_le
    simp at this
    omega

theorem getLast?_cons_cons_of_ne (a b : Char) (s : Str) (h : s ≠ []) :
    (a :: b :: s).getLast? = s.getLast? := by
  cases s with
  | nil => exact absurd rfl h
  | cons c t => rw [List.getLast?_cons_cons, List.getLast?_cons_cons]

theorem set_getD_self (l : List Str) (n : Nat) (h : n < l.length) :
    l.set n (l.getD n []) = l := by
  induction l generalizing n with
  | nil => simp at h
  | cons a rest ih =>
    cases n with
    | zero => simp [List.getD]
    | succ m =>
      simp only [List.set, List.getD_cons_succ, List.cons.injEq, true_and]
      exact ih m (by simpa using h)

theorem insAt_append (pre tail : List Str) (x : Str) :
    insAt pre.length x (pre ++ tail) = pre ++ x :: tail := by
  rw [insAt, List.take_left, List.drop_left]
theorem toggleTradGo_high (n : Nat) (e : Bool) :
    ∀ (ls : List Str) (i : Nat), n < i → toggleTradGo n e i ls = ls := by
  intro ls
  induction ls with
  | nil => intro i _; rfl
  | cons l rest ih =>
    intro i hi
    have hne : i ≠ n := by omega
    simp [toggleTradGo, hne, ih (i + 1) (by omega)]

theorem toggleTradGo_ge (n : Nat) (e : Bool) :
    ∀ (ls : List Str) (i : Nat), i + ls.length ≤ n → toggleTradGo n e i ls = ls := by
  intro ls
  induction ls with
  | nil => intro i _; rfl
  | cons l rest ih =>
    intro i hi
    simp only [List.length_cons] at hi
    have hne : i ≠ n := by omega
    simp [toggleTradGo, hne, ih (i + 1) (by omega)]

theorem toggleTradGo_set (n : Nat) (e : Bool) :
    ∀ (ls : List Str) (i k : Nat), i + k = n → k < ls.length →
      toggleTradGo n e i ls = ls.set k (toggleTradLine (ls.getD k []) e) := by
  intro ls
  induction ls with
  | nil => intro i k _ hk; simp at hk
  | cons l rest ih =>
    intro i k hik hk
    cases k with
    | zero =>
      have hin : i = n := by omega
      subst hin
      simp [toggleTradGo, List.getD, toggleTradGo_high i e rest (i + 1) (by omega)]
    | succ m =>
      have hne : i ≠ n := by omega
      simp only [toggleTradGo, if_neg hne, List.set, List.getD_cons_succ]
      rw [ih (i + 1) m (by omega) (by simpa using hk)]

/-- Characterization of the traditional toggle loop: only the addressed
line changes, and it changes by `toggleTradLine`. -/
theorem toggleTrad_eq_set (lines : List Str) (n : Nat) (e : Bool)
    (h : n < lines.length) :
    toggleTrad lines n e = lines.set n (toggleTradLine (lines.getD n []) e) :=
  toggleTradGo_set n e lines 0 n (by omega) h

/-- A line index past the end of the file leaves every line unchanged. -/
theorem toggleTrad_out_of_range (lines : List Str) (n : Nat) (e : Bool)
    (h : lines.length ≤ n) : toggleTrad lines n e = lines :=
  toggleTradGo_ge n e lines 0 (by omega)

theorem toggleTradLine_disable (s : Str) (h1 : rustTrim s = s)
    (h2 : s.head? ≠ some '#') : toggleTradLine s false = '#' :: ' ' :: s := by
  rw [toggleTradLine, h1]
  simp [h2]

theorem toggleTradLine_enable_of_comm (s : Str) (h1 : rustTrim s = s)
    (h2 : s ≠ []) : toggleTradLine ('#' :: ' ' :: s) true = s := by
  have hhead := trimNormal_head s h1
  have hlast := trimNormal_last s h1
  have ht : rustTrim ('#' :: ' ' :: s) = '#' :: ' ' :: s := by
    apply rustTrim_eq_self
    · intro c hc
      obtain rfl : '#' = c := by simpa using hc
      decide
    · intro c hc
      rw [getLast?_cons_cons_of_ne _ _ _ h2] at hc
      exact hlast c hc
  rw [toggleTradLine, ht]
  simp only [List.head?_cons, Option.some.injEq, if_pos rfl, if_pos trivial]
  have hdrop : ('#' :: ' ' :: s).dropWhile (fun c => c = '#') = ' ' :: s := by
    simp [List.dropWhile_cons]
  rw [hdrop, rustTrim, List.dropWhile_cons]
  have : isRustWs ' ' = true := by decide
  rw [if_pos this, dropWhile_ws_eq_self s hhead,
    revDropWhile_ws_eq_self s hlast, List.reverse_reverse]
theorem tradClassify_enabled (t : Str) (eff : Str)
    (h : tradClassify t = some (true, eff)) :
    eff = t ∧ ("deb".toList).isPrefixOf t = true := by
  rw [tradClassify] at h
  split at h
  · split at h <;> simp_all
  · split at h <;> simp_all

/-- Soundness facts about the traditional parser: every emitted record
points back to its source line, carries the encoded id, and enabled
records come from uncommented `deb` lines; anchors are strictly
increasing. -/
theorem parseTradGo_props (fp : Str) :
    ∀ (rem : List Str) (i : Nat),
      (∀ r ∈ parseTradGo fp i rem,
        i ≤ r.line_number ∧ r.line_number - i < rem.length ∧
        rem.getD (r.line_number - i) [] = r.original_line ∧
        r.file_path = fp ∧ r.id = fp ++ ':' :: natToChars r.line_number ∧
        (r.enabled = true →
          ("deb".toList).isPrefixOf (rustTrim r.original_line) = true)) ∧
      List.Pairwise (fun a b => a.line_number < b.line_number)
        (parseTradGo fp i rem) := by
  intro rem
  induction rem with
  | nil =>
    intro i
    constructor
    · intro r hr; simp [parseTradGo] at hr
    · simp [parseTradGo]
  | cons line rest ih =>
    intro i
    obtain ⟨ih1, ih2⟩ := ih (i + 1)
    have hnext : ∀ r ∈ parseTradGo fp (i + 1) rest,
        i ≤ r.line_number ∧ r.line_number - i < (line :: rest).length ∧
        (line :: rest).getD (r.line_number - i) [] = r.original_line ∧
        r.file_path = fp ∧ r.id = fp ++ ':' :: natToChars r.line_number ∧
        (r.enabled = true →
          ("deb".toList).isPrefixOf (rustTrim r.original_line) = true) := by
      intro r hr
      obtain ⟨a1, a2, a3, a4, a5, a6⟩ := ih1 r hr
      have hk : r.line_number - i = (r.line_number - (i + 1)) + 1 := by omega
      refine ⟨by omega, by simp only [List.length_cons]; omega, ?_, a4, a5, a6⟩
      rw [hk, List.getD_cons_succ, a3]
    by_cases hb : (rustTrim line).isEmpty
    · have hres : parseTradGo fp i (line :: rest) = parseTradGo fp (i + 1) rest := by
        simp [parseTradGo, hb]
      rw [hres]
      exact ⟨hnext, ih2⟩
    · rcases hc : tradClassify (rustTrim line) with _ | ⟨en, eff⟩
      · have hres : parseTradGo fp i (line :: rest) = parseTradGo fp (i + 1) rest := by
          simp [parseTradGo, hb, hc]
        rw [hres]
        exact ⟨hnext, ih2⟩
      · by_cases hlen : (splitWs eff).length ≥ 3
        · have hres : parseTradGo fp i (line :: rest) =
              tradRecord fp i line en eff :: parseTradGo fp (i + 1) rest := by
            simp [parseTradGo, hb, hc, hlen]
          rw [hres]
          constructor
          · intro r hr
            rcases List.mem_cons.mp hr with hr1 | hr2
            · subst hr1
              refine ⟨le_refl i, by simp only [tradRecord, List.length_cons]; omega,
                by simp [tradRecord, Nat.sub_self], rfl, rfl, ?_⟩
              intro hen
              have het : en = true := by simpa [tradRecord] using hen
              subst het
              obtain ⟨he1, he2⟩ := tradClassify_enabled _ _ hc
              simpa [tradRecord] using he2
            · exact hnext r hr2
          · refine List.pairwise_cons.mpr ⟨?_, ih2⟩
            intro r hr
            have := (ih1 r hr).1
            simp only [tradRecord]
            omega
        · have hres : parseTradGo fp i (line :: rest) = parseTradGo fp (i + 1) rest := by
            simp [parseTradGo, hb, hc, hlen]
          rw [hres]
          exact ⟨hnext, ih2⟩

theorem debFieldStep_startLine (idx : Nat) (t : Str) (acc : Deb822Acc) :
    (debFieldStep idx t acc).startLine = acc.startLine ∨
    (debFieldStep idx t acc).startLine = idx := by
  rw [debFieldStep]
  split
  · left; rfl
  · split
    · split
      · right; rfl
      · left; rfl
    · split
      · left; rfl
      · split
        · left; rfl
        · split
          · left; rfl
          · left; rfl

/-- Soundness facts about the DEB822 parser: every emitted record
carries the path and the encoded id, its anchor is at least the current
`start_line`, and anchors are strictly increasing. -/
theorem parseDebGo_props (fp : Str) :
    ∀ (rem : List Str) (idx : Nat) (acc : Deb822Acc), acc.startLine ≤ idx →
      (∀ r ∈ parseDebGo fp idx rem acc,
        acc.startLine ≤ r.line_number ∧ r.file_path = fp ∧
        r.id = fp ++ ':' :: natToChars r.line_number) ∧
      List.Pairwise (fun a b => a.line_number < b.line_number)
        (parseDebGo fp idx rem acc) := by
  intro rem
  induction rem with
  | nil =>
    intro idx acc hle
    constructor
    · intro r hr
      rw [parseDebGo] at hr
      split at hr
      · obtain rfl : r = mkDebRec fp acc [] := by simpa using hr
        exact ⟨le_refl _, rfl, rfl⟩
      · simp at hr
    · rw [parseDebGo]
      split <;> simp
  | cons line rest ih =>
    intro idx acc hle
    by_cases hb : (rustTrim line).isEmpty
    · have hres : parseDebGo fp idx (line :: rest) acc =
          (if !acc.uris.isEmpty then [mkDebRec fp acc (debOrigLine acc)] else []) ++
          parseDebGo fp (idx + 1) rest { initAcc with startLine := idx + 1 } := by
        rw [parseDebGo]; rw [if_pos hb]
      obtain ⟨ih1, ih2⟩ := ih (idx + 1) { initAcc with startLine := idx + 1 } (le_refl _)
      rw [hres]
      constructor
      · intro r hr
        rcases List.mem_append.mp hr with hr1 | hr2
        · split at hr1
          · obtain rfl : r = mkDebRec fp acc (debOrigLine acc) := by simpa using hr1
            exact ⟨le_refl _, rfl, rfl⟩
          · simp at hr1
        · obtain ⟨b1, b2, b3⟩ := ih1 r hr2
          have hb1 : ({ initAcc with startLine := idx + 1 } : Deb822Acc).startLine
              = idx + 1 := rfl
          rw [hb1] at b1
          exact ⟨by omega, b2, b3⟩
      · split
        · refine List.pairwise_cons.mpr ⟨?_, ih2⟩
          intro r hr
          have h1 := (ih1 r hr).1
          have h2 : ({ initAcc with startLine := idx + 1 } : Deb822Acc).startLine
              = idx + 1 := rfl
          rw [h2] at h1
          show (mkDebRec fp acc (debOrigLine acc)).line_number < r.line_number
          have h3 : (mkDebRec fp acc (debOrigLine acc)).line_number = acc.startLine := rfl
          rw [h3]
          omega
        · exact ih2
    · have hres : parseDebGo fp idx (line :: rest) acc =
          parseDebGo fp (idx + 1) rest (debFieldStep idx (rustTrim line) acc) := by
        rw [parseDebGo]; rw [if_neg (by simpa using hb)]
      have hsl : (debFieldStep idx (rustTrim line) acc).startLine ≤ idx + 1 := by
        rcases debFieldStep_startLine idx (rustTrim line) acc with h | h <;> omega
      have hsl2 : acc.startLine ≤ (debFieldStep idx (rustTrim line) acc).startLine ∨
          acc.startLine ≤ idx := Or.inr hle
      obtain ⟨ih1, ih2⟩ := ih (idx + 1) (debFieldStep idx (rustTrim line) acc) hsl
      rw [hres]
      refine ⟨?_, ih2⟩
      intro r hr
      obtain ⟨b1, b2, b3⟩ := ih1 r hr
      refine ⟨?_, b2, b3⟩
      rcases debFieldStep_startLine idx (rustTrim line) acc with h | h <;> omega
theorem digitCh_isDigit (d : Nat) (h : d < 10) : isDigitCh (digitCh d) = true := by
  interval_cases d <;> decide

theorem digitVal_digitCh (d : Nat) (h : d < 10) : digitVal (digitCh d) = d := by
  interval_cases d <;> decide

theorem digitCh_ne_plus (d : Nat) (h : d < 10) : digitCh d ≠ '+' := by
  interval_cases d <;> decide

theorem natToCharsGo_digits :
    ∀ (fuel n : Nat), ∀ c ∈ natToCharsGo fuel n, isDigitCh c = true := by
  intro fuel
  induction fuel with
  | zero => intro n c hc; simp [natToCharsGo] at hc
  | succ f ih =>
    intro n c hc
    cases n with
    | zero => simp [natToCharsGo] at hc
    | succ m =>
      rw [natToCharsGo] at hc
      rcases List.mem_append.mp hc with h1 | h2
      · exact ih _ c h1
      · obtain rfl : c = digitCh ((m + 1) % 10) := by simpa using h2
        exact digitCh_isDigit _ (Nat.mod_lt _ (by omega))

theorem natToChars_digits (n : Nat) : ∀ c ∈ natToChars n, isDigitCh c = true := by
  intro c hc
  rw [natToChars] at hc
  split at hc
  · obtain rfl : c = '0' := by simpa using hc
    decide
  · exact natToCharsGo_digits n n c hc

theorem colon_not_mem_natToChars (n : Nat) : (':' : Char) ∉ natToChars n := by
  intro h
  have := natToChars_digits n ':' h
  simp [isDigitCh] at this

theorem natToCharsGo_ne_nil :
    ∀ (fuel n : Nat), 0 < n → n ≤ fuel → natToCharsGo fuel n ≠ [] := by
  intro fuel
  cases fuel with
  | zero => intro n h1 h2; omega
  | succ f =>
    intro n h1 _
    cases n with
    | zero => omega
    | succ m => rw [natToCharsGo]; simp

theorem natToCharsGo_val :
    ∀ (fuel n : Nat), n ≤ fuel →
      (natToCharsGo fuel n).foldl (fun a c => 10 * a + digitVal c) 0 = n := by
  intro fuel
  induction fuel with
  | zero => intro n h; interval_cases n; rfl
  | succ f ih =>
    intro n h
    cases n with
    | zero => rfl
    | succ m =>
      rw [natToCharsGo, List.foldl_append]
      have hdiv : (m + 1) / 10 ≤ f := by
        have := Nat.div_lt_self (show 0 < m + 1 by omega) (show 1 < 10 by omega)
        omega
      rw [ih _ hdiv]
      simp only [List.foldl_cons, List.foldl_nil]
      rw [digitVal_digitCh _ (Nat.mod_lt _ (by omega))]
      omega

theorem parseUsize_natToChars (n : Nat) (h : n < 2 ^ 64) :
    parseUsize (natToChars n) = some n := by
  cases n with
  | zero => rfl
  | succ m =>
    rw [natToChars, if_neg (by omega)]
    cases hl : natToCharsGo (m + 1) (m + 1) with
    | nil => exact absurd hl (natToCharsGo_ne_nil _ _ (by omega) (le_refl _))
    | cons c cs =>
      have hdig : ∀ x ∈ c :: cs, isDigitCh x = true := by
        intro x hx; rw [← hl] at hx; exact natToCharsGo_digits _ _ x hx
      have hplus : c ≠ '+' := by
        intro he
        have := hdig c (by simp)
        rw [he] at this
        simp [isDigitCh] at this
      rw [parseUsize]
      simp only [if_neg hplus]
      rw [if_pos (by simp only [Bool.and_eq_true]; exact ⟨by simp, List.all_eq_true.mpr hdig⟩)]
      have hval : (c :: cs).foldl (fun a c => 10 * a + digitVal c) 0 = m + 1 := by
        rw [← hl]; exact natToCharsGo_val _ _ (le_refl _)
      rw [hval, if_pos h]

theorem rsplitGo_no_colon :
    ∀ (l acc : Str), (':' : Char) ∉ l → rsplitGo l acc = none := by
  intro l
  induction l with
  | nil => intro acc _; rfl
  | cons c cs ih =>
    intro acc h
    have hc : c ≠ ':' := by intro he; exact h (by simp [he])
    rw [rsplitGo, if_neg hc]
    exact ih _ (fun hm => h (by simp [hm]))

theorem rsplitGo_append :
    ∀ (ds acc rest : Str), (':' : Char) ∉ ds →
      rsplitGo (ds ++ ':' :: rest) acc = some (rest.reverse, ds.reverse ++ acc) := by
  intro ds
  induction ds with
  | nil => intro acc rest _; simp [rsplitGo]
  | cons c cs ih =>
    intro acc rest h
    have hc : c ≠ ':' := by intro he; exact h (by simp [he])
    rw [List.cons_append, rsplitGo, if_neg hc,
      ih (c :: acc) rest (fun hm => h (by simp [hm]))]
    simp

theorem rsplitOnce_encode (path num : Str) (h : (':' : Char) ∉ num) :
    rsplitOnce (path ++ ':' :: num) = some (path, num) := by
  rw [rsplitOnce]
  have hrev : (path ++ ':' :: num).reverse = num.reverse ++ ':' :: path.reverse := by
    simp
  rw [hrev, rsplitGo_append _ _ _ (by simpa using h)]
  simp

theorem rsplitOnce_no_colon (id : Str) (h : (':' : Char) ∉ id) :
    rsplitOnce id = none :=
  rsplitGo_no_colon _ _ (by simpa using h)

/-- Decoding inverts the id encoding for every path and every in-range
line number. -/
theorem decodeId_encode (path : Str) (n : Nat) (h : n < 2 ^ 64) :
    decodeId (path ++ ':' :: natToChars n) = .ok path n := by
  rw [decodeId, rsplitOnce_encode path _ (colon_not_mem_natToChars n)]
  simp [parseUsize_natToChars n h]

theorem countP_eq_one_of_pairwise (l : List AptRepository) (r : AptRepository)
    (hp : List.Pairwise (fun a b => a.line_number < b.line_number) l)
    (hr : r ∈ l) :
    l.countP (fun x =>
      decide (x.file_path = r.file_path ∧ x.line_number = r.line_number)) = 1 := by
  induction l with
  | nil => simp at hr
  | cons a t ih =>
    obtain ⟨ha, ht⟩ := List.pairwise_cons.mp hp
    rcases List.mem_cons.mp hr with rfl | hrt
    · rw [List.countP_cons_of_pos _ _ (by simp)]
      have : t.countP (fun x =>
          decide (x.file_path = r.file_path ∧ x.line_number = r.line_number)) = 0 := by
        apply List.countP_eq_zero.mpr
        intro x hx
        have := ha x hx
        simp only [decide_eq_true_eq]
        intro ⟨_, h2⟩
        omega
      omega
    · rw [List.countP_cons_of_neg _ _ ?_]
      · exact ih ht hrt
      · have := ha r hrt
        simp only [decide_eq_true_eq]
        intro ⟨_, h2⟩
        omega
theorem toggleDebGo_tail (n : Nat) (e : Bool) :
    ∀ (rest : List Str) (idx : Nat) (res : List Str) (ss : Nat), n < idx →
      toggleDebGo n e idx rest res false false ss = res ++ rest := by
  intro rest
  induction rest with
  | nil => intro idx res ss _; simp [toggleDebGo]
  | cons l r ih =>
    intro idx res ss hlt
    have hne : decide (idx = n) = false := by simp; omega
    rw [toggleDebGo]
    by_cases hb : (rustTrim l).isEmpty
    · rw [if_pos hb]
      simp only [Bool.false_and, if_neg (show ¬(false = true) by decide)]
      rw [ih (idx + 1) (res ++ [l]) ss (by omega)]
      simp
    · rw [if_neg hb]
      simp only [hne, Bool.false_or, Bool.false_and,
        if_neg (show ¬(false = true) by decide)]
      rw [if_neg (show ¬ idx = n by omega)]
      rw [ih (idx + 1) (res ++ [l]) ss (by omega)]
      simp
theorem toggleDebGo_target (n : Nat) (e : Bool) :
    ∀ (seg post : List Str) (idx : Nat) (res : List Str) (ss : Nat), n < idx →
      (∀ l ∈ seg, (rustTrim l).isEmpty = false) →
      (∀ l ∈ seg, (("Enabled:".toList).isPrefixOf (rustTrim l)) = false) →
      toggleDebGo n e idx (seg ++ post) res true false ss =
        toggleDebGo n e (idx + seg.length) post (res ++ seg) true false ss := by
  intro seg
  induction seg with
  | nil => intro post idx res ss _ _ _; simp
  | cons l r ih =>
    intro post idx res ss hlt hnb hne
    have hb : (rustTrim l).isEmpty = false := hnb l (by simp)
    have hen : (("Enabled:".toList).isPrefixOf (rustTrim l)) = false := hne l (by simp)
    rw [List.cons_append, toggleDebGo, if_neg (by simp [hb])]
    simp only [ite_self]
    rw [if_neg (show ¬ idx = n by omega)]
    simp only [Bool.true_and, hen, if_neg (show ¬(false = true) by decide)]
    rw [ih post (idx + 1) (res ++ [l]) ss (by omega)
      (fun x hx => hnb x (by simp [hx])) (fun x hx => hne x (by simp [hx]))]
    simp only [List.append_assoc, List.singleton_append, List.length_cons]
    have : idx + 1 + r.length = idx + (r.length + 1) := by omega
    rw [this]

theorem toggleDebGo_pre (n : Nat) (e : Bool) :
    ∀ (pre rest : List Str) (idx : Nat) (res : List Str) (ss : Nat),
      idx + pre.length ≤ n →
      toggleDebGo n e idx (pre ++ rest) res false false ss =
        toggleDebGo n e (idx + pre.length) rest (res ++ pre) false false ss := by
  intro pre
  induction pre with
  | nil => intro rest idx res ss _; simp
  | cons l p ih =>
    intro rest idx res ss hle
    simp only [List.length_cons] at hle
    have hne : decide (idx = n) = false := by simp; omega
    rw [List.cons_append, toggleDebGo]
    by_cases hb : (rustTrim l).isEmpty
    · rw [if_pos hb]
      simp only [Bool.false_and, if_neg (show ¬(false = true) by decide)]
      rw [ih rest (idx + 1) (res ++ [l]) ss (by omega)]
      simp only [List.append_assoc, List.singleton_append, List.length_cons]
      have : idx + 1 + p.length = idx + (p.length + 1) := by omega
      rw [this]
    · rw [if_neg hb]
      simp only [hne, Bool.false_or, Bool.false_and,
        if_neg (show ¬(false = true) by decide)]
      rw [if_neg (show ¬ idx = n by omega)]
      rw [ih rest (idx + 1) (res ++ [l]) ss (by omega)]
      simp only [List.append_assoc, List.singleton_append, List.length_cons]
      have : idx + 1 + p.length = idx + (p.length + 1) := by omega
      rw [this]

/-- Frame and insertion behaviour of the DEB822 toggle: when the
addressed index is the start of a run `seg` of non-blank lines none of
which is an `Enabled:` line, and the run is followed by a blank line or
the end of file, the rewritten line list is exactly the original with
one synthesized `Enabled:` line inserted immediately before the
addressed line. -/
theorem toggleDeb822_insert (pre seg post : List Str) (e : Bool)
    (hseg : seg ≠ [])
    (hnb : ∀ l ∈ seg, (rustTrim l).isEmpty = false)
    (hne : ∀ l ∈ seg, (("Enabled:".toList).isPrefixOf (rustTrim l)) = false)
    (hpost : ∀ b, post.head? = some b → (rustTrim b).isEmpty = true) :
    toggleDeb822 (pre ++ seg ++ post) pre.length e =
      pre ++ enLine e :: (seg ++ post) := by
  cases seg with
  | nil => exact absurd rfl hseg
  | cons s0 srest =>
    have hb0 : (rustTrim s0).isEmpty = false := hnb s0 (by simp)
    have hen0 : (("Enabled:".toList).isPrefixOf (rustTrim s0)) = false :=
      hne s0 (by simp)
    rw [toggleDeb822, List.append_assoc,
      toggleDebGo_pre pre.length e pre ((s0 :: srest) ++ post) 0 [] 0
        (by omega)]
    simp only [Nat.zero_add, List.nil_append, List.cons_append]
    rw [toggleDebGo, if_neg (by simp [hb0])]
    simp only [decide_True, Bool.true_or, if_pos trivial]
    simp only [Bool.true_and, hen0, if_neg (show ¬(false = true) by decide)]
    rw [toggleDebGo_target pre.length e srest post (pre.length + 1) (pre ++ [s0])
      pre.length (by omega)
      (fun x hx => hnb x (by simp [hx])) (fun x hx => hne x (by simp [hx]))]
    cases post with
    | nil =>
      rw [toggleDebGo]
      simp only [Bool.not_false, Bool.and_self, if_pos rfl]
      have hres : pre ++ [s0] ++ srest = pre ++ (s0 :: srest) := by simp
      rw [hres, insAt_append]
      simp
    | cons b pr =>
      have hbb : (rustTrim b).isEmpty = true := hpost b rfl
      rw [toggleDebGo, if_pos hbb]
      simp only [Bool.not_false, Bool.and_self, if_pos rfl]
      have hres : pre ++ [s0] ++ srest = pre ++ (s0 :: srest) := by simp
      rw [hres, insAt_append]
      simp only [if_pos trivial]
      rw [toggleDebGo_tail pre.length e pr (pre.length + 1 + srest.length + 1)
        (pre ++ enLine e :: s0 :: srest ++ [b]) pre.length (by omega)]
      simp
theorem delGo_tail (n : Nat) :
    ∀ (rest : List Str) (idx : Nat), n < idx → delGo n idx rest false = rest := by
  intro rest
  induction rest with
  | nil => intro idx _; rfl
  | cons l r ih =>
    intro idx hlt
    rw [delGo, if_neg (show ¬ idx = n by omega)]
    simp only [if_neg (show ¬ false = true by decide)]
    rw [ih (idx + 1) (by omega)]

theorem delGo_skip (n : Nat) :
    ∀ (seg post : List Str) (idx : Nat), n < idx →
      (∀ l ∈ seg, (rustTrim l).isEmpty = false) →
      delGo n idx (seg ++ post) true = delGo n (idx + seg.length) post true := by
  intro seg
  induction seg with
  | nil => intro post idx _ _; simp
  | cons l r ih =>
    intro post idx hlt hnb
    rw [List.cons_append, delGo, if_neg (show ¬ idx = n by omega)]
    simp only [if_pos rfl, hnb l (by simp), if_neg (show ¬ false = true by decide)]
    rw [ih post (idx + 1) (by omega) (fun x hx => hnb x (by simp [hx]))]
    have : idx + 1 + r.length = idx + (r.length + 1) := by omega
    rw [this]
    rfl

theorem delGo_pre (n : Nat) :
    ∀ (pre rest : List Str) (idx : Nat), idx + pre.length ≤ n →
      delGo n idx (pre ++ rest) false = pre ++ delGo n (idx + pre.length) rest false := by
  intro pre
  induction pre with
  | nil => intro rest idx _; simp
  | cons l p ih =>
    intro rest idx hle
    simp only [List.length_cons] at hle
    rw [List.cons_append, delGo, if_neg (show ¬ idx = n by omega)]
    simp only [if_neg (show ¬ false = true by decide)]
    rw [ih rest (idx + 1) (by omega)]
    have : idx + 1 + p.length = idx + (p.length + 1) := by omega
    rw [this]
    simp

/-- Deletion boundary of the DEB822 delete: deleting at the index of
the first line of a run of non-blank lines removes exactly that run and
the following blank line; every earlier and later line is kept. -/
theorem deleteDeb822_boundary (pre : List Str) (s0 : Str) (srest post : List Str)
    (b : Str) (hnb : ∀ l ∈ srest, (rustTrim l).isEmpty = false)
    (hb : (rustTrim b).isEmpty = true) :
    deleteDeb822 (pre ++ (s0 :: srest) ++ b :: post) pre.length = pre ++ post := by
  rw [deleteDeb822, List.append_assoc,
    delGo_pre pre.length pre ((s0 :: srest) ++ b :: post) 0 (by omega)]
  simp only [Nat.zero_add, List.cons_append]
  rw [delGo, if_pos rfl]
  rw [delGo_skip pre.length srest (b :: post) (pre.length + 1) (by omega) hnb]
  rw [delGo, if_neg (show ¬ pre.length + 1 + srest.length = pre.length by omega)]
  simp only [if_pos rfl, hb, if_pos rfl]
  rw [delGo_tail pre.length post _ (by omega)]
  simp only [if_pos trivial]

/-- Deletion boundary when the addressed run reaches the end of file:
everything from the anchor on is removed. -/
theorem deleteDeb822_boundary_eof (pre : List Str) (s0 : Str) (srest : List Str)
    (hnb : ∀ l ∈ srest, (rustTrim l).isEmpty = false) :
    deleteDeb822 (pre ++ (s0 :: srest)) pre.length = pre := by
  rw [deleteDeb822, delGo_pre pre.length pre (s0 :: srest) 0 (by omega)]
  simp only [Nat.zero_add]
  rw [delGo, if_pos rfl]
  rw [show (srest : List Str) = srest ++ [] by simp]
  rw [delGo_skip pre.length srest [] (pre.length + 1) (by omega) hnb]
  simp [delGo]
theorem not_isPrefixOf_of_head_ne (c d : Char) (p q t : Str) (hcd : c ≠ d)
    (hp : (c :: p).isPrefixOf t = true) : (d :: q).isPrefixOf t = false := by
  cases t with
  | nil => simp [List.isPrefixOf] at hp
  | cons x xs =>
    simp only [List.isPrefixOf, Bool.and_eq_true, beq_iff_eq] at hp
    simp only [List.isPrefixOf, Bool.and_eq_false_iff]
    left
    simp only [beq_eq_false_iff_ne, ne_eq]
    intro hdx
    apply hcd
    rw [hp.1, hdx]

theorem debFieldStep_types_unchanged (idx : Nat) (t : Str) (acc : Deb822Acc)
    (h : ("Types:".toList).isPrefixOf t = false) :
    (debFieldStep idx t acc).types = acc.types := by
  rw [debFieldStep]
  split
  · rfl
  · split
    · simp_all
    · split
      · rfl
      · split
        · rfl
        · split
          · rfl
          · rfl

theorem debFieldStep_types_set (idx : Nat) (t : Str) (acc : Deb822Acc)
    (h : ("Types:".toList).isPrefixOf t = true) (h0 : ("Enabled:".toList).isPrefixOf t = false) :
    (debFieldStep idx t acc).types = rustTrim (stripPrefixRep ("Types:".toList) t) := by
  rw [debFieldStep]
  rw [if_neg (by rw [h0]; simp)]
  rw [if_pos h]

theorem debFieldStep_uris_unchanged (idx : Nat) (t : Str) (acc : Deb822Acc)
    (h : ("URIs:".toList).isPrefixOf t = false) :
    (debFieldStep idx t acc).uris = acc.uris := by
  rw [debFieldStep]
  split
  · rfl
  · split
    · rfl
    · split
      · simp_all
      · split
        · rfl
        · split
          · rfl
          · rfl

theorem debFieldStep_uris_set (idx : Nat) (t : Str) (acc : Deb822Acc)
    (h : ("URIs:".toList).isPrefixOf t = true) (h0 : ("Enabled:".toList).isPrefixOf t = false) (h1 : ("Types:".toList).isPrefixOf t = false) :
    (debFieldStep idx t acc).uris = rustTrim (stripPrefixRep ("URIs:".toList) t) := by
  rw [debFieldStep]
  rw [if_neg (by rw [h0]; simp)]
  rw [if_neg (by rw [h1]; simp)]
  rw [if_pos h]

theorem debFieldStep_suites_unchanged (idx : Nat) (t : Str) (acc : Deb822Acc)
    (h : ("Suites:".toList).isPrefixOf t = false) :
    (debFieldStep idx t acc).suites = acc.suites := by
  rw [debFieldStep]
  split
  · rfl
  · split
    · rfl
    · split
      · rfl
      · split
        · simp_all
        · split
          · rfl
          · rfl

theorem debFieldStep_suites_set (idx : Nat) (t : Str) (acc : Deb822Acc)
    (h : ("Suites:".toList).isPrefixOf t = true) (h0 : ("Enabled:".toList).isPrefixOf t = false) (h1 : ("Types:".toList).isPrefixOf t = false) (h2 : ("URIs:".toList).isPrefixOf t = false) :
    (debFieldStep idx t acc).suites = rustTrim (stripPrefixRep ("Suites:".toList) t) := by
  rw [debFieldStep]
  rw [if_neg (by rw [h0]; simp)]
  rw [if_neg (by rw [h1]; simp)]
  rw [if_neg (by rw [h2]; simp)]
  rw [if_pos h]

theorem debFieldStep_components_unchanged (idx : Nat) (t : Str) (acc : Deb822Acc)
    (h : ("Components:".toList).isPrefixOf t = false) :
    (debFieldStep idx t acc).components = acc.components := by
  rw [debFieldStep]
  split
  · rfl
  · split
    · rfl
    · split
      · rfl
      · split
        · rfl
        · split
          · simp_all
          · rfl

theorem debFieldStep_components_set (idx : Nat) (t : Str) (acc : Deb822Acc)
    (h : ("Components:".toList).isPrefixOf t = true) (h0 : ("Enabled:".toList).isPrefixOf t = false) (h1 : ("Types:".toList).isPrefixOf t = false) (h2 : ("URIs:".toList).isPrefixOf t = false) (h3 : ("Suites:".toList).isPrefixOf t = false) :
    (debFieldStep idx t acc).components = rustTrim (stripPrefixRep ("Components:".toList) t) := by
  rw [debFieldStep]
  rw [if_neg (by rw [h0]; simp)]
  rw [if_neg (by rw [h1]; simp)]
  rw [if_neg (by rw [h2]; simp)]
  rw [if_neg (by rw [h3]; simp)]
  rw [if_pos h]

theorem debFieldStep_enabled_unchanged (idx : Nat) (t : Str) (acc : Deb822Acc)
    (h : ("Enabled:".toList).isPrefixOf t = false) :
    (debFieldStep idx t acc).enabled = acc.enabled := by
  rw [debFieldStep]
  rw [if_neg (by rw [h]; simp)]
  split
  · rfl
  · split
    · rfl
    · split
      · rfl
      · split
        · rfl
        · rfl

theorem debFieldStep_enabled_set (idx : Nat) (t : Str) (acc : Deb822Acc)
    (h : ("Enabled:".toList).isPrefixOf t = true) :
    (debFieldStep idx t acc).enabled = enabledValOf t := by
  rw [debFieldStep, if_pos h]

theorem not_isPrefixOf_of_ne_head (p q t : Str) (c d : Char)
    (hpc : p.head? = some c) (hqd : q.head? = some d) (hcd : c ≠ d)
    (hp : p.isPrefixOf t = true) : q.isPrefixOf t = false := by
  cases p with
  | nil => simp at hpc
  | cons c0 pr =>
    have hc0 : c0 = c := by simpa using hpc
    subst hc0
    cases q with
    | nil => simp at hqd
    | cons d0 qr =>
      have hd0 : d0 = d := by simpa using hqd
      subst hd0
      exact not_isPrefixOf_of_head_ne _ _ _ _ _ hcd hp

theorem debPara_types :
    ∀ (para : List Str) (idx : Nat) (acc : Deb822Acc),
      (debPara idx para acc).types = (lastFieldVal ("Types:".toList) para).getD acc.types := by
  intro para
  induction para with
  | nil => intro idx acc; rfl
  | cons l rest ih =>
    intro idx acc
    rw [debPara, ih]
    rw [lastFieldVal]
    rcases hr : lastFieldVal ("Types:".toList) rest with _ | v
    · simp only [Option.getD_none]
      by_cases hp : ("Types:".toList).isPrefixOf (rustTrim l) = true
      · rw [if_pos hp, Option.getD_some]
        have h0 := not_isPrefixOf_of_ne_head ("Types:".toList) ("Enabled:".toList) (rustTrim l) 'T' 'E' (by decide) (by decide) (by decide) hp
        rw [debFieldStep_types_set idx (rustTrim l) acc hp h0]
      · rw [if_neg hp, Option.getD_none]
        rw [debFieldStep_types_unchanged idx (rustTrim l) acc
          (Bool.eq_false_iff.mpr hp)]
    · simp only [Option.getD_some]

theorem debPara_uris :
    ∀ (para : List Str) (idx : Nat) (acc : Deb822Acc),
      (debPara idx para acc).uris = (lastFieldVal ("URIs:".toList) para).getD acc.uris := by
  intro para
  induction para with
  | nil => intro idx acc; rfl
  | cons l rest ih =>
    intro idx acc
    rw [debPara, ih]
    rw [lastFieldVal]
    rcases hr : lastFieldVal ("URIs:".toList) rest with _ | v
    · simp only [Option.getD_none]
      by_cases hp : ("URIs:".toList).isPrefixOf (rustTrim l) = true
      · rw [if_pos hp, Option.getD_some]
        have h0 := not_isPrefixOf_of_ne_head ("URIs:".toList) ("Enabled:".toList) (rustTrim l) 'U' 'E' (by decide) (by decide) (by decide) hp
        have h1 := not_isPrefixOf_of_ne_head ("URIs:".toList) ("Types:".toList) (rustTrim l) 'U' 'T' (by decide) (by decide) (by decide) hp
        rw [debFieldStep_uris_set idx (rustTrim l) acc hp h0 h1]
      · rw [if_neg hp, Option.getD_none]
        rw [debFieldStep_uris_unchanged idx (rustTrim l) acc
          (Bool.eq_false_iff.mpr hp)]
    · simp only [Option.getD_some]

theorem debPara_suites :
    ∀ (para : List Str) (idx : Nat) (acc : Deb822Acc),
      (debPara idx para acc).suites = (lastFieldVal ("Suites:".toList) para).getD acc.suites := by
  intro para
  induction para with
  | nil => intro idx acc; rfl
  | cons l rest ih =>
    intro idx acc
    rw [debPara, ih]
    rw [lastFieldVal]
    rcases hr : lastFieldVal ("Suites:".toList) rest with _ | v
    · simp only [Option.getD_none]
      by_cases hp : ("Suites:".toList).isPrefixOf (rustTrim l) = true
      · rw [if_pos hp, Option.getD_some]
        have h0 := not_isPrefixOf_of_ne_head ("Suites:".toList) ("Enabled:".toList) (rustTrim l) 'S' 'E' (by decide) (by decide) (by decide) hp
        have h1 := not_isPrefixOf_of_ne_head ("Suites:".toList) ("Types:".toList) (rustTrim l) 'S' 'T' (by decide) (by decide) (by decide) hp
        have h2 := not_isPrefixOf_of_ne_head ("Suites:".toList) ("URIs:".toList) (rustTrim l) 'S' 'U' (by decide) (by decide) (by decide) hp
        rw [debFieldStep_suites_set idx (rustTrim l) acc hp h0 h1 h2]
      · rw [if_neg hp, Option.getD_none]
        rw [debFieldStep_suites_unchanged idx (rustTrim l) acc
          (Bool.eq_false_iff.mpr hp)]
    · simp only [Option.getD_some]

theorem debPara_components :
    ∀ (para : List Str) (idx : Nat) (acc : Deb822Acc),
      (debPara idx para acc).components = (lastFieldVal ("Components:".toList) para).getD acc.components := by
  intro para
  induction para with
  | nil => intro idx acc; rfl
  | cons l rest ih =>
    intro idx acc
    rw [debPara, ih]
    rw [lastFieldVal]
    rcases hr : lastFieldVal ("Components:".toList) rest with _ | v
    · simp only [Option.getD_none]
      by_cases hp : ("Components:".toList).isPrefixOf (rustTrim l) = true
      · rw [if_pos hp, Option.getD_some]
        have h0 := not_isPrefixOf_of_ne_head ("Components:".toList) ("Enabled:".toList) (rustTrim l) 'C' 'E' (by decide) (by decide) (by decide) hp
        have h1 := not_isPrefixOf_of_ne_head ("Components:".toList) ("Types:".toList) (rustTrim l) 'C' 'T' (by decide) (by decide) (by decide) hp
        have h2 := not_isPrefixOf_of_ne_head ("Components:".toList) ("URIs:".toList) (rustTrim l) 'C' 'U' (by decide) (by decide) (by decide) hp
        have h3 := not_isPrefixOf_of_ne_head ("Components:".toList) ("Suites:".toList) (rustTrim l) 'C' 'S' (by decide) (by decide) (by decide) hp
        rw [debFieldStep_components_set idx (rustTrim l) acc hp h0 h1 h2 h3]
      · rw [if_neg hp, Option.getD_none]
        rw [debFieldStep_components_unchanged idx (rustTrim l) acc
          (Bool.eq_false_iff.mpr hp)]
    · simp only [Option.getD_some]

theorem debPara_enabled :
    ∀ (para : List Str) (idx : Nat) (acc : Deb822Acc),
      (debPara idx para acc).enabled = (lastEnabledVal para).getD acc.enabled := by
  intro para
  induction para with
  | nil => intro idx acc; rfl
  | cons l rest ih =>
    intro idx acc
    rw [debPara, ih]
    rw [lastEnabledVal]
    rcases hr : lastEnabledVal rest with _ | v
    · simp only [Option.getD_none]
      by_cases hp : ("Enabled:".toList).isPrefixOf (rustTrim l) = true
      · rw [if_pos hp, Option.getD_some]
        rw [debFieldStep_enabled_set idx (rustTrim l) acc hp]
      · rw [if_neg hp, Option.getD_none]
        rw [debFieldStep_enabled_unchanged idx (rustTrim l) acc
          (Bool.eq_false_iff.mpr hp)]
    · simp only [Option.getD_some]

/-- On a run of non-blank lines the DEB822 parser emits at most one
record, at end of file, built from the fully folded accumulator. -/
theorem parseDebGo_nonblank :
    ∀ (para : List Str) (fp : Str) (idx : Nat) (acc : Deb822Acc),
      (∀ l ∈ para, (rustTrim l).isEmpty = false) →
      parseDebGo fp idx para acc =
        (if !(debPara idx para acc).uris.isEmpty then
          [mkDebRec fp (debPara idx para acc) []] else []) := by
  intro para
  induction para with
  | nil => intro fp idx acc _; rfl
  | cons l rest ih =>
    intro fp idx acc hnb
    rw [parseDebGo]
    rw [if_neg (by rw [hnb l (by simp)]; simp)]
    rw [ih fp (idx + 1) (debFieldStep idx (rustTrim l) acc)
      (fun x hx => hnb x (by simp [hx]))]
    rfl

theorem head?_of_isPrefixOf_cons (c : Char) (p t : Str)
    (h : (c :: p).isPrefixOf t = true) : t.head? = some c := by
  cases t with
  | nil => simp [List.isPrefixOf] at h
  | cons x xs =>
    simp only [List.isPrefixOf, Bool.and_eq_true, beq_iff_eq] at h
    rw [List.head?_cons, h.1]

theorem getD_mem (l : List Str) (n : Nat) (h : n < l.length) :
    l.getD n [] ∈ l := by
  rw [List.getD_eq_getElem?_getD, List.getElem?_eq_getElem h]
  exact List.getElem_mem h

theorem getD_set_self (l : List Str) (n : Nat) (x : Str) (h : n < l.length) :
    (l.set n x).getD n [] = x := by
  rw [List.getD_eq_getElem?_getD, List.getElem?_set]
  simp [h]

theorem getLast?_set_ne_nil (l : List Str) (n : Nat) (x : Str)
    (hn : n < l.length) (hx : x ≠ []) (hl : l.getLast? ≠ some ([] : Str)) :
    (l.set n x).getLast? ≠ some ([] : Str) := by
  rw [List.getLast?_eq_getElem?, List.length_set, List.getElem?_set]
  by_cases he : n = l.length - 1
  · rw [if_pos he, if_pos (by omega)]
    simpa using hx
  · rw [if_neg he]
    rw [List.getLast?_eq_getElem?] at hl
    exact hl
theorem head?_of_isPrefixOf (p t : Str) (c : Char) (hp : p.head? = some c)
    (h : p.isPrefixOf t = true) : t.head? = some c := by
  cases p with
  | nil => simp at hp
  | cons c0 pr =>
    have hc : c0 = c := by simpa using hp
    subst hc
    exact head?_of_isPrefixOf_cons _ _ _ h

theorem getD_set_ne (l : List Str) (n j : Nat) (x : Str) (h : n ≠ j) :
    (l.set n x).getD j [] = l.getD j [] := by
  rw [List.getD_eq_getElem?_getD, List.getD_eq_getElem?_getD,
    List.getElem?_set, if_neg h]

/-- C1 counterexample: the claim fails as stated.  For the file
`deb http://example.com stable main\n` (one enabled listed record at
line 0, trailing newline) the disable/enable round trip drops the
trailing newline; for `# deb http://example.com stable main` (a
disabled listed record) the round trip enables the line; for a line
with leading whitespace the round trip trims it. -/
theorem c1_counterexample :
    ((parseSourcesFile ("/etc/apt/sources.list".toList) false
        ("deb http://example.com stable main\n".toList)).map
        (fun r => (r.line_number, r.enabled)) = [(0, true)]) ∧
    toggleTradContent (toggleTradContent
        ("deb http://example.com stable main\n".toList) 0 false) 0 true ≠
      ("deb http://example.com stable main\n".toList) ∧
    ((parseSourcesFile ("/etc/apt/sources.list".toList) false
        ("# deb http://example.com stable main".toList)).map
        (fun r => (r.line_number, r.enabled)) = [(0, false)]) ∧
    toggleTradContent (toggleTradContent
        ("# deb http://example.com stable main".toList) 0 false) 0 true ≠
      ("# deb http://example.com stable main".toList) ∧
    ((parseSourcesFile ("/etc/apt/sources.list".toList) false
        ("  deb http://example.com stable main".toList)).map
        (fun r => (r.line_number, r.enabled)) = [(0, true)]) ∧
    toggleTradContent (toggleTradContent
        ("  deb http://example.com stable main".toList) 0 false) 0 true ≠
      ("  deb http://example.com stable main".toList) := by
  decide

/-- C1 (amended): for a traditional file whose content is the
newline-join of its lines (no trailing newline, no carriage returns, no
trailing empty line) and a listed record that is enabled and whose
source line carries no leading or trailing whitespace,
`toggle(id, false)` followed by `toggle(id, true)` writes back
byte-identical content. -/
theorem c1_toggle_round_trip (fp content : Str) (r : AptRepository)
    (hnf : content = joinNl (rustLines content))
    (hgood : GoodLines (rustLines content))
    (hr : r ∈ parseSourcesFile fp false content)
    (hen : r.enabled = true)
    (htn : rustTrim r.original_line = r.original_line) :
    toggleTradContent (toggleTradContent content r.line_number false)
      r.line_number true = content := by
  have hr2 : r ∈ parseTradGo fp 0 (rustLines content) := by
    simpa [parseSourcesFile] using hr
  obtain ⟨a1, a2, a3, a4, a5, a6⟩ :=
    (parseTradGo_props fp (rustLines content) 0).1 r hr2
  rw [Nat.sub_zero] at a2 a3
  have hpre0 : ("deb".toList).isPrefixOf (rustTrim r.original_line) = true :=
    a6 hen
  rw [htn] at hpre0
  have hhead : r.original_line.head? = some 'd' :=
    head?_of_isPrefixOf ("deb".toList) r.original_line 'd' (by decide) hpre0
  have hne0 : r.original_line ≠ [] := by
    intro he; rw [he] at hhead; simp at hhead
  have hH : r.original_line.head? ≠ some '#' := by rw [hhead]; simp
  have hsmem : r.original_line ∈ rustLines content := by
    rw [← a3]; exact getD_mem _ _ a2
  obtain ⟨hgm, hgl⟩ := hgood
  have hnl : ('\n' : Char) ∉ r.original_line := (hgm _ hsmem).1
  have e1 : toggleTradContent content r.line_number false =
      joinNl ((rustLines content).set r.line_number
        ('#' :: ' ' :: r.original_line)) := by
    rw [toggleTradContent, toggleTrad_eq_set _ _ _ a2, a3,
      toggleTradLine_disable _ htn hH]
  have good1 : GoodLines ((rustLines content).set r.line_number
      ('#' :: ' ' :: r.original_line)) := by
    constructor
    · intro l hl
      rcases List.mem_or_eq_of_mem_set hl with hmem | rfl
      · exact hgm l hmem
      · constructor
        · simp only [List.mem_cons]
          push_neg
          exact ⟨by decide, by decide, hnl⟩
        · rw [getLast?_cons_cons_of_ne _ _ _ hne0]
          intro hcr
          have := trimNormal_last _ htn '\x0d' hcr
          exact absurd this (by decide)
    · exact getLast?_set_ne_nil _ _ _ a2 (by simp) hgl
  have e2 := rustLines_joinNl _ good1
  rw [e1, toggleTradContent, e2]
  have hlen2 : r.line_number < ((rustLines content).set r.line_number
      ('#' :: ' ' :: r.original_line)).length := by
    rw [List.length_set]; exact a2
  rw [toggleTrad_eq_set _ _ _ hlen2, getD_set_self _ _ _ a2,
    toggleTradLine_enable_of_comm _ htn hne0, List.set_set, ← a3,
    set_getD_self _ _ a2, ← hnf]

/-- C1 witness: the round trip at a concrete enabled record. -/
theorem c1_witness :
    toggleTradContent (toggleTradContent
        ("deb http://example.com stable main".toList) 0 false) 0 true =
      ("deb http://example.com stable main".toList) :=
  c1_toggle_round_trip ("/etc/apt/sources.list".toList)
    ("deb http://example.com stable main".toList)
    { id := ("/etc/apt/sources.list:0".toList),
      file_path := ("/etc/apt/sources.list".toList),
      line_number := 0,
      types := ("deb".toList),
      uris := ("http://example.com".toList),
      suites := ("stable".toList),
      components := ("main".toList),
      enabled := true,
      original_line := ("deb http://example.com stable main".toList) }
    (by decide) (by decide) (by decide) (by decide) (by decide)
/-- C2 counterexample: the claim fails as stated.  Enabling the line
`## deb ...` strips both leading `#` characters (the claim predicts
stripping only one, which would give `# deb ...`); disabling the line
`   deb ...` (leading whitespace) produces `# ` before the trimmed
line, not the original line with `# ` prepended. -/
theorem c2_counterexample :
    toggleTrad [("## deb http://example.com stable main".toList)] 0 true =
      [("deb http://example.com stable main".toList)] ∧
    ("deb http://example.com stable main".toList) ≠
      ("# deb http://example.com stable main".toList) ∧
    toggleTrad [("   deb http://example.com stable main".toList)] 0 false =
      [("# deb http://example.com stable main".toList)] ∧
    ("# deb http://example.com stable main".toList) ≠
      ("#    deb http://example.com stable main".toList) := by
  decide

/-- C2 (amended): for every traditional file and addressed index,
every line other than the addressed one is unchanged, and the addressed
line becomes: when enabling, the trim of the line after stripping every
leading `#` (if its trimmed form starts with `#`, else unchanged); when
disabling, `# ` followed by the trimmed line (if its trimmed form does
not start with `#`, else unchanged). -/
theorem c2_toggle_line_transform (lines : List Str) (n : Nat) (e : Bool)
    (h : n < lines.length) :
    (toggleTrad lines n e).length = lines.length ∧
    (∀ j, j ≠ n → (toggleTrad lines n e).getD j [] = lines.getD j []) ∧
    ((toggleTrad lines n e).getD n [] =
      if e then
        (if (rustTrim (lines.getD n [])).head? = some '#' then
          rustTrim ((rustTrim (lines.getD n [])).dropWhile (fun c => c = '#'))
        else lines.getD n [])
      else
        (if (rustTrim (lines.getD n [])).head? = some '#' then lines.getD n []
        else '#' :: ' ' :: rustTrim (lines.getD n []))) := by
  rw [toggleTrad_eq_set lines n e h]
  refine ⟨List.length_set .., ?_, ?_⟩
  · intro j hj
    exact getD_set_ne lines n j _ (fun he => hj he.symm)
  · rw [getD_set_self _ _ _ h, toggleTradLine]

/-- C2 witness: the transform at a concrete two-line file — line 1 is
untouched and line 0 is uncommented. -/
theorem c2_witness :
    (toggleTrad [("# deb http://example.com stable main".toList),
        ("deb http://other.org x y".toList)] 0 true).getD 1 [] =
      ("deb http://other.org x y".toList) ∧
    (toggleTrad [("# deb http://example.com stable main".toList),
        ("deb http://other.org x y".toList)] 0 true).getD 0 [] =
      ("deb http://example.com stable main".toList) := by
  have h := c2_toggle_line_transform
    [("# deb http://example.com stable main".toList),
     ("deb http://other.org x y".toList)] 0 true (by decide)
  constructor
  · rw [h.2.1 1 (by decide)]
    decide
  · rw [h.2.2]
    decide

/-- C3 counterexample: the claim fails as stated.  In the file whose
single stanza is `# repo comment / Types: deb / URIs: ... / Suites: ...
/ Components: ...` the listed record's anchor is line 1 (the `Types:`
line), and toggling inserts the synthesized `Enabled: no` at position 1
(immediately before the anchor), not at the stanza's first line
(position 0). -/
theorem c3_counterexample :
    ((parseSourcesFile ("/etc/apt/sources.list.d/x.sources".toList) true
        ("# repo comment\nTypes: deb\nURIs: http://example.com\nSuites: stable\nComponents: main".toList)).map
        (fun r => r.line_number) = [1]) ∧
    (∀ l ∈ [("# repo comment".toList), ("Types: deb".toList),
        ("URIs: http://example.com".toList), ("Suites: stable".toList),
        ("Components: main".toList)],
      (("Enabled:".toList).isPrefixOf (rustTrim l)) = false) ∧
    toggleDeb822 [("# repo comment".toList), ("Types: deb".toList),
        ("URIs: http://example.com".toList), ("Suites: stable".toList),
        ("Components: main".toList)] 1 false =
      [("# repo comment".toList), ("Enabled: no".toList), ("Types: deb".toList),
        ("URIs: http://example.com".toList), ("Suites: stable".toList),
        ("Components: main".toList)] ∧
    toggleDeb822 [("# repo comment".toList), ("Types: deb".toList),
        ("URIs: http://example.com".toList), ("Suites: stable".toList),
        ("Components: main".toList)] 1 false ≠
      ("Enabled: no".toList) :: [("# repo comment".toList), ("Types: deb".toList),
        ("URIs: http://example.com".toList), ("Suites: stable".toList),
        ("Components: main".toList)] := by
  decide

/-- C3 (amended): when the addressed index starts a run of non-blank
lines none of which is an `Enabled:` line, and the run extends to the
next blank line or the end of file, the DEB822 toggle inserts exactly
one synthesized `Enabled: yes|no` line, immediately before the
addressed (anchor) line — which is the stanza's first line only when
nothing precedes the anchor inside the stanza — and every other line
is copied verbatim. -/
theorem c3_enabled_insertion (pre seg post : List Str) (e : Bool)
    (hseg : seg ≠ [])
    (hnb : ∀ l ∈ seg, (rustTrim l).isEmpty = false)
    (hne : ∀ l ∈ seg, (("Enabled:".toList).isPrefixOf (rustTrim l)) = false)
    (hpost : ∀ b, post.head? = some b → (rustTrim b).isEmpty = true) :
    toggleDeb822 (pre ++ seg ++ post) pre.length e =
      pre ++ enLine e :: (seg ++ post) :=
  toggleDeb822_insert pre seg post e hseg hnb hne hpost

/-- C3 witness: scenario B of the specification — the four-line stanza
gains `Enabled: no` as its new first line. -/
theorem c3_witness :
    toggleDeb822 ([] ++ [("Types: deb".toList), ("URIs: http://example.com".toList),
        ("Suites: stable".toList), ("Components: main".toList)] ++ [])
      (List.length ([] : List Str)) false =
      [] ++ enLine false :: ([("Types: deb".toList), ("URIs: http://example.com".toList),
        ("Suites: stable".toList), ("Components: main".toList)] ++ []) :=
  c3_enabled_insertion [] [("Types: deb".toList), ("URIs: http://example.com".toList),
      ("Suites: stable".toList), ("Components: main".toList)] [] false
    (by decide) (by decide) (by decide) (by intro b hb; simp at hb)
/-- C4 counterexample: the claim fails as stated.  With two `URIs:`
lines in one paragraph, the emitted record carries the value of the
second (last) occurrence, not the first. -/
theorem c4_counterexample :
    ((parseSourcesFile ("/etc/apt/sources.list.d/x.sources".toList) true
        ("Types: deb\nURIs: http://first\nURIs: http://second\nSuites: stable\nComponents: main".toList)).map
        (fun r => r.uris) = [("http://second".toList)]) ∧
    ("http://second".toList) ≠ ("http://first".toList) := by
  decide

/-- C4 (amended): in the DEB822 stanza parser each recognized field
line overwrites its accumulator, so when a recognized field occurs more
than once in a paragraph the LAST occurrence determines the emitted
record's field value (for `Types:`, `URIs:`, `Suites:`, `Components:`
and `Enabled:` alike); absent fields keep the initial accumulator
values (empty strings, enabled). -/
theorem c4_last_occurrence_wins (fp : Str) (para : List Str)
    (hnb : ∀ l ∈ para, (rustTrim l).isEmpty = false)
    (hu : (lastFieldVal ("URIs:".toList) para).getD [] ≠ []) :
    (parseDebGo fp 0 para initAcc).map
      (fun r => (r.types, r.uris, r.suites, r.components, r.enabled)) =
      [((lastFieldVal ("Types:".toList) para).getD [],
        (lastFieldVal ("URIs:".toList) para).getD [],
        (lastFieldVal ("Suites:".toList) para).getD [],
        (lastFieldVal ("Components:".toList) para).getD [],
        (lastEnabledVal para).getD true)] := by
  rw [parseDebGo_nonblank para fp 0 initAcc hnb]
  have hu2 : (debPara 0 para initAcc).uris = (lastFieldVal ("URIs:".toList) para).getD [] :=
    debPara_uris para 0 initAcc
  have hne : (debPara 0 para initAcc).uris.isEmpty = false := by
    rw [hu2]
    cases hv : (lastFieldVal ("URIs:".toList) para).getD [] with
    | nil => rw [hv] at hu; exact absurd rfl hu
    | cons c cs => rfl
  rw [if_pos (by rw [hne]; rfl)]
  rw [List.map_cons, List.map_nil]
  have h1 := debPara_types para 0 initAcc
  have h3 := debPara_suites para 0 initAcc
  have h4 := debPara_components para 0 initAcc
  have h5 := debPara_enabled para 0 initAcc
  simp only [mkDebRec]
  rw [h1, hu2, h3, h4, h5]
  rfl

/-- C4 witness: a concrete paragraph with duplicated `URIs:` and
`Enabled:` fields. -/
theorem c4_witness :
    (parseDebGo ("/e/x.sources".toList) 0
      [("Types: deb".toList), ("Enabled: no".toList), ("URIs: http://first".toList),
       ("URIs: http://second".toList), ("Enabled: yes".toList),
       ("Suites: stable".toList), ("Components: main".toList)] initAcc).map
      (fun r => (r.types, r.uris, r.suites, r.components, r.enabled)) =
      [((lastFieldVal ("Types:".toList)
          [("Types: deb".toList), ("Enabled: no".toList), ("URIs: http://first".toList),
           ("URIs: http://second".toList), ("Enabled: yes".toList),
           ("Suites: stable".toList), ("Components: main".toList)]).getD [],
        (lastFieldVal ("URIs:".toList)
          [("Types: deb".toList), ("Enabled: no".toList), ("URIs: http://first".toList),
           ("URIs: http://second".toList), ("Enabled: yes".toList),
           ("Suites: stable".toList), ("Components: main".toList)]).getD [],
        (lastFieldVal ("Suites:".toList)
          [("Types: deb".toList), ("Enabled: no".toList), ("URIs: http://first".toList),
           ("URIs: http://second".toList), ("Enabled: yes".toList),
           ("Suites: stable".toList), ("Components: main".toList)]).getD [],
        (lastFieldVal ("Components:".toList)
          [("Types: deb".toList), ("Enabled: no".toList), ("URIs: http://first".toList),
           ("URIs: http://second".toList), ("Enabled: yes".toList),
           ("Suites: stable".toList), ("Components: main".toList)]).getD [],
        (lastEnabledVal
          [("Types: deb".toList), ("Enabled: no".toList), ("URIs: http://first".toList),
           ("URIs: http://second".toList), ("Enabled: yes".toList),
           ("Suites: stable".toList), ("Components: main".toList)]).getD true)] :=
  c4_last_occurrence_wins ("/e/x.sources".toList)
    [("Types: deb".toList), ("Enabled: no".toList), ("URIs: http://first".toList),
     ("URIs: http://second".toList), ("Enabled: yes".toList),
     ("Suites: stable".toList), ("Components: main".toList)]
    (by decide) (by decide)
/-- C5 counterexample: the claim fails as stated.  The id `:5` splits
into an EMPTY left part and `5`, yet decoding succeeds (yielding the
empty file path and line 5) instead of failing with an invalid-format
error; the later file-existence check is what rejects such ids. -/
theorem c5_counterexample :
    decodeId (":5".toList) = DecodeRes.ok [] 5 ∧
    (∀ msg, decodeId (":5".toList) ≠ DecodeRes.err msg) := by
  constructor
  · decide
  · intro msg h
    rw [show decodeId (":5".toList) = DecodeRes.ok [] 5 by decide] at h
    exact DecodeRes.noConfusion h

/-- C5 (amended): decoding splits the id once from the right on a
colon.  It fails with `Invalid repository ID` exactly when the id
contains no colon, and with `Invalid line number` when the right part
does not parse as a `usize`; otherwise it succeeds with the left part
(which MAY be empty) as the file path and the parsed right part as the
line number. -/
theorem c5_decode_id :
    (∀ l r : Str, (':' : Char) ∉ r →
      decodeId (l ++ ':' :: r) =
        (match parseUsize r with
         | some n => DecodeRes.ok l n
         | none => DecodeRes.err ("Invalid line number".toList))) ∧
    (∀ id : Str, (':' : Char) ∉ id →
      decodeId id = DecodeRes.err ("Invalid repository ID".toList)) := by
  constructor
  · intro l r h
    rw [decodeId, rsplitOnce_encode l r h]
    cases hp : parseUsize r <;> simp [hp]
  · intro id h
    rw [decodeId, rsplitOnce_no_colon id h]

/-- C5 witness: decoding at a path that itself contains a colon, and
the no-colon failure. -/
theorem c5_witness :
    decodeId (("/etc/apt:odd".toList) ++ ':' :: ("12".toList)) =
      DecodeRes.ok ("/etc/apt:odd".toList) 12 ∧
    decodeId ("no-colon-here".toList) =
      DecodeRes.err ("Invalid repository ID".toList) := by
  constructor
  · have h := c5_decode_id.1 ("/etc/apt:odd".toList) ("12".toList) (by decide)
    rw [h]
    decide
  · exact c5_decode_id.2 ("no-colon-here".toList) (by decide)

/-- C6: the DEB822 delete removes exactly the lines from the addressed
anchor through the next blank line, including that blank line (or
through the end of file when no blank follows); every line before the
anchor and after the consumed blank line is kept verbatim. -/
theorem c6_delete_boundary :
    (∀ (pre : List Str) (s0 : Str) (srest post : List Str) (b : Str),
      (∀ l ∈ srest, (rustTrim l).isEmpty = false) →
      (rustTrim b).isEmpty = true →
      deleteDeb822 (pre ++ (s0 :: srest) ++ b :: post) pre.length = pre ++ post) ∧
    (∀ (pre : List Str) (s0 : Str) (srest : List Str),
      (∀ l ∈ srest, (rustTrim l).isEmpty = false) →
      deleteDeb822 (pre ++ (s0 :: srest)) pre.length = pre) :=
  ⟨fun pre s0 srest post b h1 h2 => deleteDeb822_boundary pre s0 srest post b h1 h2,
   fun pre s0 srest h1 => deleteDeb822_boundary_eof pre s0 srest h1⟩

/-- C6 witness: deleting the middle stanza of a three-stanza file. -/
theorem c6_witness :
    deleteDeb822 ([("Types: deb".toList), ("URIs: http://a".toList), ([] : Str)] ++
        ([("Types: deb".toList)] ++ [("URIs: http://b".toList)] : List Str) ++
        ([] : Str) :: [("Types: deb".toList), ("URIs: http://c".toList)])
      (List.length [("Types: deb".toList), ("URIs: http://a".toList), ([] : Str)]) =
      [("Types: deb".toList), ("URIs: http://a".toList), ([] : Str)] ++
      [("Types: deb".toList), ("URIs: http://c".toList)] := by
  have h := c6_delete_boundary.1
    [("Types: deb".toList), ("URIs: http://a".toList), ([] : Str)]
    ("Types: deb".toList) [("URIs: http://b".toList)]
    [("Types: deb".toList), ("URIs: http://c".toList)] ([] : Str)
    (by decide) (by decide)
  exact h
/-- C7: when deleting a DEB822 stanza leaves only whitespace, the file
is removed via the privileged `rm` command with nothing staged;
otherwise the remaining content (with a trailing newline) is staged and
installed over the target with the privileged `cp` command. -/
theorem c7_whitespace_remove (id path content st : Str) (n : Nat) (s : Bool)
    (hid : decodeId id = DecodeRes.ok path n) :
    ((rustTrim (joinNl (deleteDeb822 (rustLines content) n))).isEmpty = true →
      deleteAptRepo id (some content) true (.exited s st) =
        ([FsEvent.invokeHelper [("rm".toList), path]],
         if s then CmdResult.ok
         else CmdResult.err (("Failed to delete repository file: ".toList) ++ st))) ∧
    ((rustTrim (joinNl (deleteDeb822 (rustLines content) n))).isEmpty = false →
      deleteAptRepo id (some content) true (.exited s st) =
        stagedInstall ("apt_repo_del_temp".toList) path
          (joinNl (deleteDeb822 (rustLines content) n) ++ ['\n'])
          ("Failed to update repository file: ".toList) (.exited s st)) := by
  constructor
  · intro h
    rw [deleteAptRepo, hid]
    simp only [if_pos rfl, if_pos trivial]
    rw [if_pos h]
  · intro h
    rw [deleteAptRepo, hid]
    simp only [if_pos rfl, if_pos trivial]
    rw [if_neg (by rw [h]; simp)]

/-- C7 witness: deleting the only stanza triggers the `rm` path. -/
theorem c7_witness :
    deleteAptRepo ("/etc/apt/sources.list.d/x.sources:0".toList)
      (some ("Types: deb\nURIs: http://example.com\nSuites: stable\nComponents: main".toList))
      true (.exited true []) =
      ([FsEvent.invokeHelper [("rm".toList),
          ("/etc/apt/sources.list.d/x.sources".toList)]],
       if true then CmdResult.ok
       else CmdResult.err (("Failed to delete repository file: ".toList) ++ [])) :=
  (c7_whitespace_remove ("/etc/apt/sources.list.d/x.sources:0".toList)
    ("/etc/apt/sources.list.d/x.sources".toList)
    ("Types: deb\nURIs: http://example.com\nSuites: stable\nComponents: main".toList)
    [] 0 true (by decide)).1 (by decide)

/-- C8 counterexample: the claim fails as stated.  When spawning the
elevation helper itself errors (the helper step failed), the function
returns early and the staged temporary file is NOT deleted: the event
trace holds only the temporary-file write. -/
theorem c8_counterexample :
    (stagedInstall ("apt_repo_temp".toList) ("/etc/apt/sources.list".toList)
        ("deb http://example.com stable main".toList)
        ("Failed to update repository: ".toList)
        (.spawnError ("spawn error".toList))).1 =
      [FsEvent.writeTemp ("apt_repo_temp".toList)
        ("deb http://example.com stable main".toList)] ∧
    FsEvent.removeTemp ("apt_repo_temp".toList) ∉
      (stagedInstall ("apt_repo_temp".toList) ("/etc/apt/sources.list".toList)
        ("deb http://example.com stable main".toList)
        ("Failed to update repository: ".toList)
        (.spawnError ("spawn error".toList))).1 := by
  decide

/-- C8 (amended): in the shared privileged-write block used by toggle,
add and delete, whenever the elevation helper was spawned and exited —
with either exit status — the staged temporary file is deleted before
the function returns; only a spawn failure skips the cleanup. -/
theorem c8_temp_cleanup (tempName target content errPre stderr : Str) (s : Bool) :
    FsEvent.removeTemp tempName ∈
      (stagedInstall tempName target content errPre (.exited s stderr)).1 := by
  simp [stagedInstall]

/-- C9: every record listed from a file decodes to its (file path,
anchor line) pair, and re-parsing the same content yields exactly one
record with that file path and anchor line. -/
theorem c9_record_identity (fp : Str) (isDeb : Bool) (content : Str)
    (r : AptRepository)
    (hr : r ∈ parseSourcesFile fp isDeb content)
    (hn : r.line_number < 2 ^ 64) :
    (parseSourcesFile fp isDeb content).countP
      (fun x => decide (x.file_path = r.file_path ∧
        x.line_number = r.line_number)) = 1 ∧
    r.file_path = fp ∧
    decodeId r.id = DecodeRes.ok fp r.line_number := by
  cases isDeb with
  | false =>
    have hr2 : r ∈ parseTradGo fp 0 (rustLines content) := by
      simpa [parseSourcesFile] using hr
    obtain ⟨hall, hpw⟩ := parseTradGo_props fp (rustLines content) 0
    obtain ⟨_, _, _, a4, a5, _⟩ := hall r hr2
    refine ⟨?_, a4, ?_⟩
    · have hc := countP_eq_one_of_pairwise _ r hpw hr2
      simpa [parseSourcesFile] using hc
    · rw [a5, decodeId_encode fp r.line_number hn]
  | true =>
    have hr2 : r ∈ parseDebGo fp 0 (rustLines content) initAcc := by
      simpa [parseSourcesFile] using hr
    obtain ⟨hall, hpw⟩ :=
      parseDebGo_props fp (rustLines content) 0 initAcc (Nat.le_refl 0)
    obtain ⟨_, a4, a5⟩ := hall r hr2
    refine ⟨?_, a4, ?_⟩
    · have hc := countP_eq_one_of_pairwise _ r hpw hr2
      simpa [parseSourcesFile] using hc
    · rw [a5, decodeId_encode fp r.line_number hn]

/-- C9 witness: a concrete one-record file in each format. -/
theorem c9_witness :
    (parseSourcesFile ("/etc/apt/sources.list".toList) false
        ("deb http://example.com stable main".toList)).countP
      (fun x => decide (x.file_path = ("/etc/apt/sources.list".toList) ∧
        x.line_number = 0)) = 1 ∧
    decodeId ("/etc/apt/sources.list:0".toList) =
      DecodeRes.ok ("/etc/apt/sources.list".toList) 0 := by
  have h := c9_record_identity ("/etc/apt/sources.list".toList) false
    ("deb http://example.com stable main".toList)
    { id := ("/etc/apt/sources.list:0".toList),
      file_path := ("/etc/apt/sources.list".toList),
      line_number := 0,
      types := ("deb".toList),
      uris := ("http://example.com".toList),
      suites := ("stable".toList),
      components := ("main".toList),
      enabled := true,
      original_line := ("deb http://example.com stable main".toList) }
    (by decide) (by decide)
  exact ⟨h.1, h.2.2⟩

/-- C10: toggling a well-formed id whose line number is at or past the
end of a traditional file is not reported as an error: every line is
left unchanged, the privileged rewrite is still performed, and a
success acknowledgment is returned (when the helper succeeds). -/
theorem c10_out_of_range_toggle (id path content st : Str) (n : Nat) (e : Bool)
    (hid : decodeId id = DecodeRes.ok path n)
    (hlen : (rustLines content).length ≤ n) :
    toggleAptRepo id e (some content) false (.exited true st) =
      ([FsEvent.writeTemp ("apt_repo_temp".toList) (joinNl (rustLines content)),
        FsEvent.invokeHelper [("cp".toList), ("apt_repo_temp".toList), path],
        FsEvent.removeTemp ("apt_repo_temp".toList)], CmdResult.ok) := by
  rw [toggleAptRepo, hid]
  simp only [if_neg (show ¬ (false = true) by decide)]
  rw [toggleTradContent, toggleTrad_out_of_range _ _ _ hlen]
  rfl

/-- C10 witness: line 5 of a one-line file. -/
theorem c10_witness :
    toggleAptRepo ("/etc/apt/sources.list:5".toList) false
      (some ("deb http://example.com stable main".toList)) false
      (.exited true []) =
      ([FsEvent.writeTemp ("apt_repo_temp".toList)
          (joinNl (rustLines ("deb http://example.com stable main".toList))),
        FsEvent.invokeHelper [("cp".toList), ("apt_repo_temp".toList),
          ("/etc/apt/sources.list".toList)],
        FsEvent.removeTemp ("apt_repo_temp".toList)], CmdResult.ok) :=
  c10_out_of_range_toggle ("/etc/apt/sources.list:5".toList)
    ("/etc/apt/sources.list".toList)
    ("deb http://example.com stable main".toList) [] 5 false
    (by decide) (by decide)
end Gantry
